import Mathlib

/-!
Verification of the single-crate pocket-dictionary filter (`src/crate.h`).

The 64-byte pocket dictionary (PD) is modelled as a `List Nat` of its 64
bytes (each byte < 256 in well-formed states).  Machine integers are
modelled as `Nat` with explicit `% 2^w` at the points where the C code
truncates (parameter conversions, `uint64_t` subtraction, shifts whose
result is truncated).  The bit-manipulation intrinsics (`_pdep_u64`,
`_tzcnt_u64`, `_mm_popcnt_u64`) are modelled by structurally recursive
functions that scan the 64 bit positions, so every definition evaluates
by `decide`.
-/

/-- Population count of the low `w` bits of `x` (bit positions `0..w-1`).
`popAux 64` models `_mm_popcnt_u64`: only the low 64 bits of the operand
contribute, exactly as the C conversion to `uint64_t` would ensure. -/
def popAux : Nat → Nat → Nat
  | 0, _ => 0
  | w + 1, x => x % 2 + popAux w (x / 2)

/-- Trailing-zero count over `f` bit positions: `tzAux 64` models
`_tzcnt_u64`, which returns 64 on a zero operand. -/
def tzAux : Nat → Nat → Nat
  | 0, _ => 0
  | f + 1, x => if x % 2 = 1 then 0 else tzAux f (x / 2) + 1

/-- Parallel bit deposit over `f` bit positions of the mask, low to high:
bit `i` of the mask, when set, receives the next unconsumed low bit of
`src`.  `pdepAux 64` models `_pdep_u64`. -/
def pdepAux : Nat → Nat → Nat → Nat
  | 0, _, _ => 0
  | f + 1, src, mask =>
    if mask % 2 = 1 then src % 2 + 2 * pdepAux f (src / 2) (mask / 2)
    else 2 * pdepAux f src (mask / 2)

/-- `_tzcnt_u64`: the operand is a `uint64_t`, hence the `% 2^64`. -/
def tzcnt64 (x : Nat) : Nat := tzAux 64 (x % 2 ^ 64)

/-- `_pdep_u64`: both operands are `uint64_t`. -/
def pdep64 (src mask : Nat) : Nat := pdepAux 64 (src % 2 ^ 64) (mask % 2 ^ 64)

/-- `popcount64` from the source (a wrapper around `_mm_popcnt_u64`). -/
def popcount64 (x : Nat) : Nat := popAux 64 (x % 2 ^ 64)

/-- `popcount128` from the source: popcounts of the two 64-bit halves. -/
def popcount128 (x : Nat) : Nat := popcount64 (x % 2 ^ 64) + popcount64 (x >>> 64)

/-- `select64(x, j)`: position of the `j`th set bit of `x`, computed as in
the source by depositing `1 << j` into `x` and counting trailing zeros. -/
def select64 (x j : Nat) : Nat := tzcnt64 (pdep64 (1 <<< j) x)

/-- `select64_alt(x, j)`: `j` is an `int64_t` and may be `-1`.  The deposit
source is `(1 << (j+1)) >> 1` computed in `uint64_t`, and the trailing-zero
count is masked with 63. -/
def select64_alt (x : Nat) (j : Int) : Nat :=
  63 &&& tzcnt64 (pdep64 (((1 <<< (j + 1).toNat) % 2 ^ 64) >>> 1) x)

/-- `select128(x, j)`: delegates to the half of `x` containing the `j`th
set bit, based on the popcount of the low half. -/
def select128 (x j : Nat) : Nat :=
  let pop := popcount64 (x % 2 ^ 64)
  if j < pop then select64 (x % 2 ^ 64) j
  else 64 + select64 (x >>> 64) (j - pop)

/-- `select128withPop64(x, j, pop)`: as `select128` with the low-half
popcount supplied by the caller. -/
def select128withPop64 (x j pop : Nat) : Nat :=
  if j < pop then select64 (x % 2 ^ 64) j
  else 64 + select64 (x >>> 64) (j - pop)

/-- Byte `i` of the 64-byte PD block.  The `% 256` models that memory
holds 8-bit bytes. -/
def byteAt (pd : List Nat) (i : Nat) : Nat := pd.getD i 0 % 256

/-- Little-endian value of the first `n` bytes of the block; models
`memcpy` of `n` bytes into an integer on a little-endian host. -/
def readLE (pd : List Nat) : Nat → Nat
  | 0 => 0
  | n + 1 => readLE pd n + byteAt pd n * 2 ^ (8 * n)

/-- `uint64_t` subtraction for operands below `2^64`. -/
def sub64 (a b : Nat) : Nat := (a + 2 ^ 64 - b) % 2 ^ 64

/-- The masked 101-bit header, loaded from the first 16 bytes as in the
find variants: `memcpy(&header, pd, sizeof(header))` then
`header &= (((__int128)1 << (50+51)) - 1)`. -/
def headerOf (pd : List Nat) : Nat := readLE pd 16 &&& (2 ^ 101 - 1)

/-- The masked 101-bit header as loaded in `pd_add_50`, which copies only
`kBytes2copy = 13` bytes before masking. -/
def pdHeader13 (pd : List Nat) : Nat := readLE pd 13 &&& (2 ^ 101 - 1)

/-- The 64-bit byte-equality mask over the first `n` bytes of the block:
bit `i` is set iff byte `i` equals `r`.  `cmpAux r pd 64` models
`_mm512_cmpeq_epu8_mask(_mm512_set1_epi8(r), *pd)`. -/
def cmpAux (r : Nat) (pd : List Nat) : Nat → Nat
  | 0 => 0
  | n + 1 => cmpAux r pd n + (if byteAt pd n = r then 1 else 0) * 2 ^ n

/-- The full 64-byte equality mask. -/
def cmpMask (r : Nat) (pd : List Nat) : Nat := cmpAux r pd 64

/-- The shared tail of all find variants: shift the equality mask past the
13 header bytes, keep bits `[beginIdx, endIdx)`, and test for nonzero. -/
def findTail (r : Nat) (pd : List Nat) (beginIdx endIdx : Nat) : Bool :=
  let v := cmpMask r pd >>> 13
  decide ((v &&& (((1 <<< endIdx) % 2 ^ 64) - 1)) >>> beginIdx ≠ 0)

/-- `pd_find_50(quot, rem, pd)`.  `rem` has C type `uint8_t`, modelled by
reducing the argument `% 256` on entry. -/
def pd_find_50 (quot rem : Nat) (pd : List Nat) : Bool :=
  let r := rem % 256
  let header := headerOf pd
  let pop := popcount64 (header % 2 ^ 64)
  let beginIdx := sub64 (if quot = 0 then 0 else select128withPop64 header (quot - 1) pop + 1) quot
  let endIdx := sub64 (select128withPop64 header quot pop) quot
  findTail r pd beginIdx endIdx

/-- `pd_find_50_alt`: manually inlined `select128` calls. -/
def pd_find_50_alt (quot rem : Nat) (pd : List Nat) : Bool :=
  let r := rem % 256
  let header := headerOf pd
  let be : Nat × Nat :=
    if quot = 0 then
      (0, select64 header 0)
    else
      let pop := popcount64 (header % 2 ^ 64)
      if quot - 1 ≥ pop then
        (sub64 (64 + select64 (header >>> 64) (quot - 1 - pop) + 1) quot,
         sub64 (64 + select64 (header >>> 64) (quot - pop)) quot)
      else
        (sub64 (select64 header (quot - 1) + 1) quot,
         if quot ≥ pop then sub64 (64 + select64 (header >>> 64) (quot - pop)) quot
         else sub64 (select64 header quot) quot)
  findTail r pd be.1 be.2

/-- `pd_find_50_alt2`: `begin` as in `alt`, `end` via a trailing-zero
count on the header shifted past the begin slot. -/
def pd_find_50_alt2 (quot rem : Nat) (pd : List Nat) : Bool :=
  let r := rem % 256
  let header := headerOf pd
  let beginIdx :=
    if quot > 0 then
      let pop := popcount64 (header % 2 ^ 64)
      if quot - 1 < pop then sub64 (select64 header (quot - 1) + 1) quot
      else sub64 (64 + select64 (header >>> 64) (quot - 1 - pop) + 1) quot
    else 0
  let endIdx := beginIdx + tzcnt64 (header >>> (beginIdx + quot))
  findTail r pd beginIdx endIdx

/-- `pd_find_50_alt3`: like `alt2` with a cmov-style `begin`. -/
def pd_find_50_alt3 (quot rem : Nat) (pd : List Nat) : Bool :=
  let r := rem % 256
  let header := headerOf pd
  let beginIdx :=
    if quot > 0 then
      let pop := popcount64 (header % 2 ^ 64)
      let q1 := quot - 1
      sub64 (if q1 < pop then select64 header q1 else 64 + select64 (header >>> 64) (q1 - pop)) q1
    else 0
  let endIdx := beginIdx + tzcnt64 (header >>> (beginIdx + quot))
  findTail r pd beginIdx endIdx

/-- `pd_find_50_alt4`: `begin` from a single `select64` over the shifted
header, using the popcount of the header bits below `quot - 1`. -/
def pd_find_50_alt4 (quot rem : Nat) (pd : List Nat) : Bool :=
  let r := rem % 256
  let header := headerOf pd
  let beginIdx :=
    if quot > 0 then
      let p := popcount64 (header &&& (((1 <<< (quot - 1)) % 2 ^ 64) - 1))
      select64 (header >>> (quot - 1)) (quot - 1 - p)
    else 0
  let endIdx := beginIdx + tzcnt64 (header >>> (beginIdx + quot))
  findTail r pd beginIdx endIdx

/-- `pd_find_50_alt5`: branchless `begin` via `select64_alt` with a
possibly `-1` rank and `quot & 63` as shift count. -/
def pd_find_50_alt5 (quot rem : Nat) (pd : List Nat) : Bool :=
  let r := rem % 256
  let header := headerOf pd
  let mask := (((1 <<< quot) % 2 ^ 64) - 1) >>> 1
  let p := popcount64 (header &&& mask)
  let beginIdx := select64_alt ((header <<< 1) >>> (quot &&& 63)) ((quot : Int) - 1 - (p : Int))
  let endIdx := beginIdx + tzcnt64 (header >>> (beginIdx + quot))
  findTail r pd beginIdx endIdx

/-- `fill` as computed in `pd_add_50`: `select128(header, 49) - 49` in the
C type `unsigned` (32 bits). -/
def pdFillRaw (pd : List Nat) : Nat :=
  (select128 (pdHeader13 pd) 49 + 2 ^ 32 - 49) % 2 ^ 32

/-- Header-bit position where quotient `quot`'s slot range begins, as
computed in `pd_add_50`. -/
def addBeginH (header quot : Nat) : Nat :=
  if quot = 0 then 0 else select128 header (quot - 1) + 1

/-- Header-bit position where quotient `quot`'s slot range ends. -/
def addEndH (header quot : Nat) : Nat := select128 header quot

/-- The updated header of `pd_add_50`: keep the bits below `begin`, shift
the suffix starting at `end` up by one, inserting a zero slot. -/
def newHeaderOf (header quot : Nat) : Nat :=
  (header &&& ((1 <<< addBeginH header quot) - 1)) |||
    ((header >>> addEndH header quot) <<< (addEndH header quot + 1))

/-- Write the 13 low bytes of `h` over the first 13 bytes of the block
(`memcpy(pd, &new_header, kBytes2copy)`). -/
def writeHeader (pd : List Nat) (h : Nat) : List Nat :=
  (List.range 13).map (fun j => (h >>> (8 * j)) % 256) ++ pd.drop 13

/-- The insertion-scan loop of `pd_add_50`: starting at tape index `i`,
advance while the stored byte is smaller than `r`, for at most `count`
steps (`count = end_fingerprint - begin_fingerprint`). -/
def scanIdx (r : Nat) (pd : List Nat) (i : Nat) : Nat → Nat
  | 0 => i
  | c + 1 => if r ≤ byteAt pd (13 + i) then i else scanIdx r pd (i + 1) c

/-- The tape index at which `pd_add_50` stores the new remainder. -/
def addIndex (quot rem : Nat) (pd : List Nat) : Nat :=
  let h := pdHeader13 pd
  let pd1 := writeHeader pd (newHeaderOf h quot)
  let bF := sub64 (addBeginH h quot) quot
  let eF := sub64 (addEndH h quot) quot
  scanIdx (rem % 256) pd1 bF (eF - bF)

/-- `pd_add_50(quot, rem, pd)`: returns the C result together with the
updated 64-byte block (the C code mutates in place).  The final list
expression models the `memmove` that shifts tape bytes `13+i .. 62` up by
one followed by the store of `rem` at byte `13+i`. -/
def pd_add_50 (quot rem : Nat) (pd : List Nat) : Bool × List Nat :=
  if pdFillRaw pd = 51 then (false, pd)
  else
    let h := pdHeader13 pd
    let pd1 := writeHeader pd (newHeaderOf h quot)
    let i := addIndex quot rem pd
    (true, pd1.take (13 + i) ++ [rem % 256] ++ (pd1.drop (13 + i)).take (64 - (13 + i + 1)))

/-- The empty PD written by the `GenericCrate` constructor:
`__m512i{(1 << 50) - 1, 0, ..., 0}` as 64 little-endian bytes. -/
def emptyPD : List Nat := (List.range 64).map (fun j => ((2 ^ 50 - 1) >>> (8 * j)) % 256)

/-- The filter: a bucket count and the array of PD buckets. -/
structure GenericCrate where
  bucket_count : Nat
  buckets : List (List Nat)

/-- `GenericCrate(add_count)`: `bucket_count_ = add_count / 45` buckets,
each initialized to the empty PD. -/
def crateInit (add_count : Nat) : GenericCrate :=
  { bucket_count := add_count / 45,
    buckets := List.replicate (add_count / 45) emptyPD }

/-- `SizeInBytes()`: `sizeof(__m512i) * bucket_count_` in `uint64_t`. -/
def GenericCrate.SizeInBytes (c : GenericCrate) : Nat :=
  64 * c.bucket_count % 2 ^ 64

/-- Bucket index of a key: `(uint32_t(key) * bucket_count) >> 32` in
`uint64_t` arithmetic. -/
def keyBucket (bc key : Nat) : Nat :=
  (((key % 2 ^ 64 % 2 ^ 32) * bc) % 2 ^ 64) >>> 32

/-- Quotient of a key: `((key >> 40) * 50) >> 24` (the product is below
`2^30`, so no 64-bit truncation can occur). -/
def keyQuot (key : Nat) : Nat := (((key % 2 ^ 64) >>> 40) * 50) >>> 24

/-- Remainder of a key: `key >> 32` converted to `uint8_t`. -/
def keyRem (key : Nat) : Nat := ((key % 2 ^ 64) >>> 32) % 256

/-- `Add(key)`: decompose the key and insert into the target bucket.
The pair carries the updated filter (the C code mutates in place). -/
def GenericCrate.Add (c : GenericCrate) (key : Nat) : Bool × GenericCrate :=
  let k := key % 2 ^ 64
  let idx := (((k % 2 ^ 32) * c.bucket_count) % 2 ^ 64) >>> 32
  let res := pd_add_50 (((k >>> 40) * 50) >>> 24) ((k >>> 32) % 256) (c.buckets.getD idx emptyPD)
  (res.1, { c with buckets := c.buckets.set idx res.2 })

/-- `Contain(key)` for a lookup routine `finder` (the `FINDER` template
parameter); `key >> 32` is converted to `uint8_t` at the call. -/
def GenericCrate.Contain (finder : Nat → Nat → List Nat → Bool)
    (c : GenericCrate) (key : Nat) : Bool :=
  let k := key % 2 ^ 64
  finder (((k >>> 40) * 50) >>> 24) ((k >>> 32) % 256)
    (c.buckets.getD ((((k % 2 ^ 32) * c.bucket_count) % 2 ^ 64) >>> 32) emptyPD)

/-- `Contain64(keys)`: compute the 64 bucket indexes (stored in
`uint32_t`), prefetch (no observable effect), then or together the lookup
results, bit `i` for key `i`. -/
def GenericCrate.Contain64 (finder : Nat → Nat → List Nat → Bool)
    (c : GenericCrate) (keys : List Nat) : Nat :=
  let indexes := (List.range 64).map
    (fun i => ((((keys.getD i 0 % 2 ^ 64 % 2 ^ 32) * c.bucket_count) % 2 ^ 64) >>> 32) % 2 ^ 32)
  (List.range 64).foldl
    (fun result i =>
      result |||
        ((if finder ((((keys.getD i 0 % 2 ^ 64) >>> 40) * 50) >>> 24)
              (((keys.getD i 0 % 2 ^ 64) >>> 32) % 256)
              (c.buckets.getD (indexes.getD i 0) emptyPD)
          then 1 else 0) <<< i))
    0

/-- `Contain64_alt(keys)`: identical to `Contain64` except that the
prefetch is interleaved with the index computation, which has no
observable effect in this model. -/
def GenericCrate.Contain64_alt (finder : Nat → Nat → List Nat → Bool)
    (c : GenericCrate) (keys : List Nat) : Nat :=
  let indexes := (List.range 64).map
    (fun i => ((((keys.getD i 0 % 2 ^ 64 % 2 ^ 32) * c.bucket_count) % 2 ^ 64) >>> 32) % 2 ^ 32)
  (List.range 64).foldl
    (fun result i =>
      result |||
        ((if finder ((((keys.getD i 0 % 2 ^ 64) >>> 40) * 50) >>> 24)
              (((keys.getD i 0 % 2 ^ 64) >>> 32) % 256)
              (c.buckets.getD (indexes.getD i 0) emptyPD)
          then 1 else 0) <<< i))
    0

/-- `Contain128(keys)`: as `Contain64` over 128 keys, with a 128-bit
result mask. -/
def GenericCrate.Contain128 (finder : Nat → Nat → List Nat → Bool)
    (c : GenericCrate) (keys : List Nat) : Nat :=
  let indexes := (List.range 128).map
    (fun i => ((((keys.getD i 0 % 2 ^ 64 % 2 ^ 32) * c.bucket_count) % 2 ^ 64) >>> 32) % 2 ^ 32)
  (List.range 128).foldl
    (fun result i =>
      result |||
        ((if finder ((((keys.getD i 0 % 2 ^ 64) >>> 40) * 50) >>> 24)
              (((keys.getD i 0 % 2 ^ 64) >>> 32) % 256)
              (c.buckets.getD (indexes.getD i 0) emptyPD)
          then 1 else 0) <<< i))
    0

/-- Fold a list of keys through `Add`, keeping the evolving filter. -/
def runAdds (c : GenericCrate) (ks : List Nat) : GenericCrate :=
  ks.foldl (fun c k => (GenericCrate.Add c k).2) c

/-- PD states reachable from the empty PD by successful `pd_add_50` calls
with in-range quotient and remainder. -/
inductive Reachable : List Nat → Prop
  | base : Reachable emptyPD
  | step {pd : List Nat} {q r : Nat} : Reachable pd → q < 50 → r < 256 →
      (pd_add_50 q r pd).1 = true → Reachable (pd_add_50 q r pd).2

/-! ### Specification-side definitions: ranks, selects, and the abstract PD -/

/-- `IsNth x j s`: bit `s` of `x` is set and exactly `j` set bits lie
below it; i.e. `s` is the position of the `j`th set bit of `x`. -/
def IsNth (x j s : Nat) : Prop := x.testBit s = true ∧ popAux s x = j

/-- Position of the `j`th set bit among the low `f` bits of `x`
(specification-side witness function). -/
def nthAux : Nat → Nat → Nat → Nat
  | 0, _, _ => 0
  | f + 1, x, j =>
    if x % 2 = 1 then
      (if j = 0 then 0 else nthAux f (x / 2) (j - 1) + 1)
    else nthAux f (x / 2) j + 1

/-! ### Basic facts about `popAux` -/

theorem popAux_zero (w : Nat) : popAux w 0 = 0 := by
  induction w with
  | zero => rfl
  | succ w ih => simp [popAux, ih]

theorem popAux_le (w x : Nat) : popAux w x ≤ w := by
  induction w generalizing x with
  | zero => simp [popAux]
  | succ w ih =>
    have h2 : x % 2 ≤ 1 := Nat.le_of_lt_succ (Nat.mod_lt x (by norm_num))
    calc popAux (w + 1) x = x % 2 + popAux w (x / 2) := rfl
    _ ≤ 1 + w := Nat.add_le_add h2 (ih (x / 2))
    _ = w + 1 := Nat.add_comm 1 w

theorem popAux_add (a b x : Nat) :
    popAux (a + b) x = popAux a x + popAux b (x >>> a) := by
  induction a generalizing x with
  | zero => simp [popAux]
  | succ a ih =>
    have h1 : a + 1 + b = (a + b) + 1 := by omega
    have h2 : x >>> (a + 1) = (x / 2) >>> a := by
      rw [Nat.add_comm a 1, Nat.shiftRight_add, Nat.shiftRight_one]
    rw [h1]
    show x % 2 + popAux (a + b) (x / 2) = (x % 2 + popAux a (x / 2)) + popAux b (x >>> (a + 1))
    rw [ih (x / 2), h2, Nat.add_assoc]

theorem popAux_mod {w m : Nat} (x : Nat) (h : w ≤ m) :
    popAux w (x % 2 ^ m) = popAux w x := by
  induction w generalizing x m with
  | zero => rfl
  | succ w ih =>
    obtain ⟨m', rfl⟩ : ∃ m', m = m' + 1 := ⟨m - 1, by omega⟩
    have hm2 : (2 : Nat) ^ (m' + 1) = 2 * 2 ^ m' := by ring
    have e1 : x % 2 ^ (m' + 1) % 2 = x % 2 := by
      rw [hm2]; exact Nat.mod_mod_of_dvd x ⟨2 ^ m', rfl⟩
    have e2 : x % 2 ^ (m' + 1) / 2 = x / 2 % 2 ^ m' := by
      rw [hm2]; exact Nat.mod_mul_right_div_self x 2 (2 ^ m')
    show x % 2 ^ (m' + 1) % 2 + popAux w (x % 2 ^ (m' + 1) / 2) = x % 2 + popAux w (x / 2)
    rw [e1, e2, ih (x / 2) (by omega)]

theorem popAux_eq_of_lt {w w' x : Nat} (hx : x < 2 ^ w) (hw : w ≤ w') :
    popAux w' x = popAux w x := by
  obtain ⟨b, rfl⟩ : ∃ b, w' = w + b := ⟨w' - w, by omega⟩
  rw [popAux_add]
  have : x >>> w = 0 := by
    rw [Nat.shiftRight_eq_div_pow]
    exact Nat.div_eq_of_lt hx
  rw [this, popAux_zero, Nat.add_zero]

theorem popAux_succ (s x : Nat) : popAux (s + 1) x = popAux s x + x / 2 ^ s % 2 := by
  rw [popAux_add]
  have : popAux 1 (x >>> s) = x >>> s % 2 := by simp [popAux]
  rw [this, Nat.shiftRight_eq_div_pow]

theorem testBit_eq_true_iff (x s : Nat) : x.testBit s = true ↔ x / 2 ^ s % 2 = 1 := by
  rw [Nat.testBit_to_div_mod]; simp

theorem testBit_eq_false_iff (x s : Nat) : x.testBit s = false ↔ x / 2 ^ s % 2 = 0 := by
  rw [Nat.testBit_to_div_mod]
  have := Nat.mod_two_eq_zero_or_one (x / 2 ^ s)
  simp only [decide_eq_false_iff_not]
  omega

theorem popAux_succ_of_testBit {x s : Nat} (h : x.testBit s = true) :
    popAux (s + 1) x = popAux s x + 1 := by
  rw [popAux_succ, (testBit_eq_true_iff x s).mp h]

theorem popAux_mono {w w' : Nat} (x : Nat) (h : w ≤ w') : popAux w x ≤ popAux w' x := by
  obtain ⟨b, rfl⟩ : ∃ b, w' = w + b := ⟨w' - w, by omega⟩
  rw [popAux_add]; omega

/-- Bits strictly between two widths with equal rank are all clear. -/
theorem testBit_false_of_popAux_eq {x a b i : Nat} (hab : popAux a x = popAux b x)
    (h1 : a ≤ i) (h2 : i < b) : x.testBit i = false := by
  by_contra h
  have hbit : x.testBit i = true := by
    cases hx : x.testBit i with
    | false => exact absurd hx h
    | true => rfl
  have k1 : popAux a x ≤ popAux i x := popAux_mono x h1
  have k2 : popAux (i + 1) x ≤ popAux b x := popAux_mono x (by omega)
  have k3 : popAux (i + 1) x = popAux i x + 1 := popAux_succ_of_testBit hbit
  omega

theorem mod_two_pow_eq_zero_of_bits {x g : Nat}
    (h : ∀ i, i < g → x.testBit i = false) : x % 2 ^ g = 0 := by
  apply Nat.eq_of_testBit_eq
  intro i
  rw [Nat.testBit_mod_two_pow, Nat.zero_testBit]
  by_cases hi : i < g
  · simp [hi, h i hi]
  · simp [hi]

/-- `popAux` only counts set bits: the rank below `s` is bounded by the
rank over the whole (101-bit) range when `s` is below a set bit budget. -/
theorem isNth_lt_of_lt {x j s : Nat} (hn : IsNth x j s) : j ≤ s := by
  obtain ⟨_, hp⟩ := hn
  calc j = popAux s x := hp.symm
  _ ≤ s := popAux_le s x

theorem isNth_unique {x j s s' : Nat} (h : IsNth x j s) (h' : IsNth x j s') : s = s' := by
  by_contra hne
  rcases Nat.lt_or_ge s s' with hlt | hge
  · have := popAux_succ_of_testBit h.1
    have h1 : popAux (s + 1) x ≤ popAux s' x := popAux_mono x (by omega)
    have := h.2; have := h'.2; omega
  · have hlt : s' < s := by omega
    have := popAux_succ_of_testBit h'.1
    have h1 : popAux (s' + 1) x ≤ popAux s x := popAux_mono x (by omega)
    have := h.2; have := h'.2; omega

theorem isNth_mono {x j j' s s' : Nat} (h : IsNth x j s) (h' : IsNth x j' s')
    (hj : j < j') : s < s' := by
  by_contra hc
  have hge : s' ≤ s := by omega
  have h1 : popAux s' x ≤ popAux s x := popAux_mono x hge
  have := h.2; have := h'.2; omega

theorem isNth_testBit_lt {x j s : Nat} (h : IsNth x j s) : 2 ^ s ≤ x :=
  Nat.testBit_implies_ge h.1

/-- Existence and range of the `j`th set bit, via `nthAux`. -/
theorem nthAux_spec : ∀ (f x j : Nat), j < popAux f x →
    IsNth x j (nthAux f x j) ∧ nthAux f x j < f := by
  intro f
  induction f with
  | zero => intro x j h; simp [popAux] at h
  | succ f ih =>
    intro x j h
    by_cases hodd : x % 2 = 1
    · by_cases hj : j = 0
      · subst hj
        refine ⟨⟨?_, ?_⟩, ?_⟩
        · simp [nthAux, hodd, Nat.testBit_zero]
        · simp [nthAux, hodd, popAux]
        · simp [nthAux, hodd]
      · have hj' : j - 1 < popAux f (x / 2) := by
          have : popAux (f + 1) x = x % 2 + popAux f (x / 2) := rfl
          omega
        obtain ⟨⟨hb, hp⟩, hlt⟩ := ih (x / 2) (j - 1) hj'
        have hval : nthAux (f + 1) x j = nthAux f (x / 2) (j - 1) + 1 := by
          simp [nthAux, hodd, hj]
        refine ⟨⟨?_, ?_⟩, ?_⟩
        · rw [hval, Nat.testBit_add_one]; exact hb
        · rw [hval]
          show x % 2 + popAux (nthAux f (x / 2) (j - 1)) (x / 2) = j
          rw [hp]; omega
        · omega
    · have hx0 : x % 2 = 0 := by omega
      have hj' : j < popAux f (x / 2) := by
        have : popAux (f + 1) x = x % 2 + popAux f (x / 2) := rfl
        omega
      obtain ⟨⟨hb, hp⟩, hlt⟩ := ih (x / 2) j hj'
      have hval : nthAux (f + 1) x j = nthAux f (x / 2) j + 1 := by
        simp [nthAux, hx0]
      refine ⟨⟨?_, ?_⟩, ?_⟩
      · rw [hval, Nat.testBit_add_one]; exact hb
      · rw [hval]
        show x % 2 + popAux (nthAux f (x / 2) j) (x / 2) = j
        rw [hp]; omega
      · omega


/-! ### `tzAux`, `pdepAux`, and correctness of the select routines -/

theorem tzAux_zero_val (f : Nat) : tzAux f 0 = f := by
  induction f with
  | zero => rfl
  | succ f ih => simp [tzAux, ih]

theorem tzAux_spec : ∀ (f y s : Nat), s < f → y % 2 ^ s = 0 → y.testBit s = true →
    tzAux f y = s := by
  intro f
  induction f with
  | zero => intro y s h _ _; omega
  | succ f ih =>
    intro y s hs hmod hbit
    match s with
    | 0 =>
      have h0 : y / 2 ^ 0 % 2 = 1 := (testBit_eq_true_iff y 0).mp hbit
      have : y % 2 = 1 := by simpa using h0
      simp [tzAux, this]
    | s + 1 =>
      have hdvd : (2 : Nat) ∣ 2 ^ (s + 1) := ⟨2 ^ s, by ring⟩
      have hy2 : y % 2 = 0 := by
        have h := Nat.mod_mod_of_dvd y hdvd
        rw [hmod] at h
        simpa using h.symm
      have hmod' : (y / 2) % 2 ^ s = 0 := by
        have h1 : y % (2 * 2 ^ s) = 0 := by
          rw [show (2 : Nat) * 2 ^ s = 2 ^ (s + 1) from by ring]
          exact hmod
        have h2 := Nat.mod_mul_right_div_self y 2 (2 ^ s)
        rw [h1] at h2
        simpa using h2.symm
      have hbit' : (y / 2).testBit s = true := by
        rw [← Nat.testBit_add_one]; exact hbit
      have : tzAux (f + 1) y = tzAux f (y / 2) + 1 := by simp [tzAux, hy2]
      rw [this, ih (y / 2) s (by omega) hmod' hbit']

theorem pdepAux_src_zero : ∀ (f m : Nat), pdepAux f 0 m = 0 := by
  intro f
  induction f with
  | zero => intro m; rfl
  | succ f ih =>
    intro m
    by_cases hm : m % 2 = 1 <;> simp [pdepAux, hm, ih]

theorem pdepAux_pow_spec : ∀ (f m j s : Nat), s < f → m.testBit s = true →
    popAux s m = j → pdepAux f (2 ^ j) m = 2 ^ s := by
  intro f
  induction f with
  | zero => intro m j s h _ _; omega
  | succ f ih =>
    intro m j s hs hbit hrank
    by_cases hm : m % 2 = 1
    · match s with
      | 0 =>
        have hj : j = 0 := by simpa [popAux] using hrank.symm
        subst hj
        simp [pdepAux, hm, pdepAux_src_zero]
      | s + 1 =>
        have hj : j = popAux s (m / 2) + 1 := by
          have : popAux (s + 1) m = m % 2 + popAux s (m / 2) := rfl
          omega
        have hbit' : (m / 2).testBit s = true := by
          rw [← Nat.testBit_add_one]; exact hbit
        have step : pdepAux (f + 1) (2 ^ j) m =
            2 ^ j % 2 + 2 * pdepAux f (2 ^ j / 2) (m / 2) := by
          simp [pdepAux, hm]
        have hjpos : 0 < j := by omega
        have e1 : (2 : Nat) ^ j % 2 = 0 := by
          obtain ⟨j', rfl⟩ : ∃ j', j = j' + 1 := ⟨j - 1, by omega⟩
          simp [Nat.pow_succ, Nat.mul_mod_left]
        have e2 : (2 : Nat) ^ j / 2 = 2 ^ (j - 1) := by
          obtain ⟨j', rfl⟩ : ∃ j', j = j' + 1 := ⟨j - 1, by omega⟩
          simp [Nat.pow_succ]
        rw [step, e1, e2, ih (m / 2) (j - 1) s (by omega) hbit' (by omega)]
        ring
    · have hm0 : m % 2 = 0 := by omega
      match s with
      | 0 =>
        have : m.testBit 0 = false := (testBit_eq_false_iff m 0).mpr (by simpa using hm0)
        rw [hbit] at this
        exact absurd this (by simp)
      | s + 1 =>
        have hj : j = popAux s (m / 2) := by
          have : popAux (s + 1) m = m % 2 + popAux s (m / 2) := rfl
          omega
        have hbit' : (m / 2).testBit s = true := by
          rw [← Nat.testBit_add_one]; exact hbit
        have step : pdepAux (f + 1) (2 ^ j) m = 2 * pdepAux f (2 ^ j) (m / 2) := by
          simp [pdepAux, hm0]
        rw [step, ih (m / 2) j s (by omega) hbit' hj.symm]
        ring

theorem tzcnt64_pow {s : Nat} (hs : s < 64) : tzcnt64 (2 ^ s) = s := by
  have hlt : (2 : Nat) ^ s < 2 ^ 64 := Nat.pow_lt_pow_right (by norm_num) hs
  unfold tzcnt64
  rw [Nat.mod_eq_of_lt hlt]
  exact tzAux_spec 64 (2 ^ s) s hs (Nat.mod_self _) Nat.testBit_two_pow_self

theorem popcount64_eq (x : Nat) : popcount64 x = popAux 64 x := by
  unfold popcount64
  exact popAux_mod x (Nat.le_refl 64)

theorem isNth_mod_two_pow {x j s m : Nat} (h : IsNth x j s) (hs : s < m) :
    IsNth (x % 2 ^ m) j s := by
  obtain ⟨hb, hp⟩ := h
  refine ⟨?_, ?_⟩
  · rw [Nat.testBit_mod_two_pow]; simp [hs, hb]
  · rw [popAux_mod x (by omega)]; exact hp

theorem isNth_shiftRight {x j s m : Nat} (h : IsNth x j s) (hm : m ≤ s) :
    IsNth (x >>> m) (j - popAux m x) (s - m) := by
  obtain ⟨hb, hp⟩ := h
  refine ⟨?_, ?_⟩
  · rw [Nat.testBit_shiftRight]
    have : m + (s - m) = s := by omega
    rw [this]; exact hb
  · have hsplit := popAux_add m (s - m) x
    rw [show m + (s - m) = s from by omega] at hsplit
    omega

theorem isNth_lt_width {x j s w : Nat} (h : IsNth x j s) (hx : x < 2 ^ w) : s < w := by
  have h1 : 2 ^ s ≤ x := isNth_testBit_lt h
  have := Nat.lt_of_le_of_lt h1 hx
  exact (Nat.pow_lt_pow_iff_right (by norm_num)).mp this

theorem select64_eq {x j s : Nat} (h : IsNth x j s) (hs : s < 64) : select64 x j = s := by
  have hj : j ≤ s := isNth_lt_of_lt h
  have hmod : IsNth (x % 2 ^ 64) j s := isNth_mod_two_pow h hs
  have hsh : (1 : Nat) <<< j % 2 ^ 64 = 2 ^ j := by
    rw [Nat.shiftLeft_eq, Nat.one_mul]
    exact Nat.mod_eq_of_lt (Nat.pow_lt_pow_right (by norm_num) (by omega))
  unfold select64 pdep64
  rw [hsh, pdepAux_pow_spec 64 (x % 2 ^ 64) j s hs hmod.1 hmod.2]
  exact tzcnt64_pow hs

theorem isNth_lt64_iff {x j s : Nat} (h : IsNth x j s) :
    (j < popAux 64 x ↔ s < 64) := by
  constructor
  · intro hj
    by_contra hs
    have : popAux 64 x ≤ popAux s x := popAux_mono x (by omega)
    have := h.2
    omega
  · intro hs
    have h1 : popAux (s + 1) x = popAux s x + 1 := popAux_succ_of_testBit h.1
    have h2 : popAux (s + 1) x ≤ popAux 64 x := popAux_mono x (by omega)
    have := h.2
    omega

theorem select128withPop64_eq {x j s : Nat} (hx : x < 2 ^ 128) (h : IsNth x j s) :
    select128withPop64 x j (popAux 64 x) = s := by
  unfold select128withPop64
  by_cases hj : j < popAux 64 x
  · have hs : s < 64 := (isNth_lt64_iff h).mp hj
    rw [if_pos hj]
    have hm : IsNth (x % 2 ^ 64) j s := isNth_mod_two_pow h hs
    exact select64_eq hm hs
  · have hs : ¬ s < 64 := fun hs => hj ((isNth_lt64_iff h).mpr hs)
    rw [if_neg hj]
    have hsh : IsNth (x >>> 64) (j - popAux 64 x) (s - 64) :=
      isNth_shiftRight h (by omega)
    have hs128 : s < 128 := isNth_lt_width h hx
    have := select64_eq hsh (by omega)
    omega

theorem select128_eq {x j s : Nat} (hx : x < 2 ^ 128) (h : IsNth x j s) :
    select128 x j = s := by
  have e : popcount64 (x % 2 ^ 64) = popAux 64 x := by
    rw [popcount64_eq, popAux_mod x (Nat.le_refl 64)]
  show select128withPop64 x j (popcount64 (x % 2 ^ 64)) = s
  rw [e]
  exact select128withPop64_eq hx h

/-- In a 101-bit header with 50 set bits, the `j`th set bit lies at
position at most `51 + j` (at most 51 zeros precede it). -/
theorem nth_upper_bound {h j s : Nat} (hlt : h < 2 ^ 101) (hpop : popAux 128 h = 50)
    (hn : IsNth h j s) : s ≤ 51 + j := by
  have hs101 : s < 101 := isNth_lt_width hn hlt
  have hsplit := popAux_add (s + 1) (127 - s) h
  rw [show s + 1 + (127 - s) = 128 from by omega] at hsplit
  have h1 : popAux (s + 1) h = j + 1 := by
    rw [popAux_succ_of_testBit hn.1, hn.2]
  have hshift : h >>> (s + 1) < 2 ^ (100 - s) := by
    rw [Nat.shiftRight_eq_div_pow]
    apply Nat.div_lt_of_lt_mul
    calc h < 2 ^ 101 := hlt
    _ = 2 ^ (s + 1) * 2 ^ (100 - s) := by
      rw [← Nat.pow_add, show s + 1 + (100 - s) = 101 from by omega]
  have h2 : popAux (127 - s) (h >>> (s + 1)) = popAux (100 - s) (h >>> (s + 1)) :=
    popAux_eq_of_lt hshift (by omega)
  have h3 : popAux (100 - s) (h >>> (s + 1)) ≤ 100 - s := popAux_le _ _
  omega

/-- In a 101-bit header with 50 set bits, the `j`th set bit is at
position at least `j`. -/
theorem nth_lower_bound {h j s : Nat} (hn : IsNth h j s) : j ≤ s :=
  isNth_lt_of_lt hn

/-! ### Header geometry: the slot range of a quotient class -/

/-- Header-bit position at which quotient `q`'s slot range begins
(one past the `(q-1)`th set bit), defined via the specification-side
`nthAux`. -/
def beginH (h q : Nat) : Nat := if q = 0 then 0 else nthAux 128 h (q - 1) + 1

/-- Header-bit position of the `q`th set bit, ending quotient `q`'s
slot range. -/
def endH (h q : Nat) : Nat := nthAux 128 h q

theorem headerOf_lt (pd : List Nat) : headerOf pd < 2 ^ 101 :=
  Nat.lt_of_le_of_lt Nat.and_le_right (by norm_num)

theorem pdHeader13_lt (pd : List Nat) : pdHeader13 pd < 2 ^ 101 :=
  Nat.lt_of_le_of_lt Nat.and_le_right (by norm_num)

theorem sub64_eq {a b : Nat} (h1 : b ≤ a) (h2 : a < 2 ^ 64) : sub64 a b = a - b := by
  unfold sub64
  rw [show a + 2 ^ 64 - b = (a - b) + 2 ^ 64 from by omega,
    Nat.add_mod_right, Nat.mod_eq_of_lt (by omega)]

theorem popcount64_low (h : Nat) : popcount64 (h % 2 ^ 64) = popAux 64 h := by
  rw [popcount64_eq, popAux_mod h (Nat.le_refl 64)]

theorem isNth_endH {h q : Nat} (hpop : popAux 128 h = 50) (hq : q < 50) :
    IsNth h q (endH h q) :=
  (nthAux_spec 128 h q (by omega)).1

theorem endH_le {h q : Nat} (hlt : h < 2 ^ 101) (hpop : popAux 128 h = 50) (hq : q < 50) :
    endH h q ≤ 51 + q :=
  nth_upper_bound hlt hpop (isNth_endH hpop hq)

theorem q_le_endH {h q : Nat} (hpop : popAux 128 h = 50) (hq : q < 50) :
    q ≤ endH h q :=
  nth_lower_bound (isNth_endH hpop hq)

theorem isNth_beginH {h q : Nat} (hpop : popAux 128 h = 50) (hq : q < 50) (hq0 : q ≠ 0) :
    IsNth h (q - 1) (beginH h q - 1) := by
  unfold beginH
  rw [if_neg hq0]
  simpa using (nthAux_spec 128 h (q - 1) (by omega)).1

theorem q_le_beginH {h q : Nat} (hpop : popAux 128 h = 50) (hq : q < 50) :
    q ≤ beginH h q := by
  unfold beginH
  by_cases hq0 : q = 0
  · simp [hq0]
  · rw [if_neg hq0]
    have := nth_lower_bound (nthAux_spec 128 h (q - 1) (by omega)).1
    omega

theorem beginH_le {h q : Nat} (hlt : h < 2 ^ 101) (hpop : popAux 128 h = 50) (hq : q < 50) :
    beginH h q ≤ 51 + q := by
  unfold beginH
  by_cases hq0 : q = 0
  · simp [hq0]
  · rw [if_neg hq0]
    have := nth_upper_bound hlt hpop (nthAux_spec 128 h (q - 1) (by omega)).1
    omega

theorem beginH_le_endH {h q : Nat} (hpop : popAux 128 h = 50) (hq : q < 50) :
    beginH h q ≤ endH h q := by
  unfold beginH endH
  by_cases hq0 : q = 0
  · simp [hq0]
  · rw [if_neg hq0]
    have hmono := isNth_mono (nthAux_spec 128 h (q - 1) (by omega)).1
      (nthAux_spec 128 h q (by omega)).1 (show q - 1 < q by omega)
    omega

theorem popAux_beginH {h q : Nat} (hpop : popAux 128 h = 50) (hq : q < 50) :
    popAux (beginH h q) h = q := by
  unfold beginH
  by_cases hq0 : q = 0
  · simp [hq0, popAux]
  · rw [if_neg hq0]
    obtain ⟨hb, hp⟩ := (nthAux_spec 128 h (q - 1) (by omega)).1
    rw [popAux_succ_of_testBit hb, hp]
    omega

/-- Bits strictly inside the slot range `[beginH, endH)` are all clear. -/
theorem slot_bits_clear {h q i : Nat} (hpop : popAux 128 h = 50) (hq : q < 50)
    (h1 : beginH h q ≤ i) (h2 : i < endH h q) : h.testBit i = false := by
  apply testBit_false_of_popAux_eq (a := beginH h q) (b := endH h q) _ h1 h2
  rw [popAux_beginH hpop hq, (isNth_endH hpop hq).2]

/-- The trailing-zero count of the header shifted past the begin slot is
exactly the width of the slot range. -/
theorem tz_gap {h q : Nat} (hlt : h < 2 ^ 101) (hpop : popAux 128 h = 50) (hq : q < 50) :
    tzcnt64 (h >>> beginH h q) = endH h q - beginH h q := by
  set bh := beginH h q with hbh
  set eh := endH h q with heh
  have hbe : bh ≤ eh := beginH_le_endH hpop hq
  have hgap : eh - bh ≤ 51 := by
    have h1 := endH_le hlt hpop hq
    have h2 := q_le_beginH (h := h) (q := q) hpop hq
    omega
  have hmod : (h >>> bh) % 2 ^ (eh - bh) = 0 := by
    apply mod_two_pow_eq_zero_of_bits
    intro i hi
    rw [Nat.testBit_shiftRight]
    exact slot_bits_clear hpop hq (by omega) (by omega)
  have hbit : (h >>> bh).testBit (eh - bh) = true := by
    rw [Nat.testBit_shiftRight, show bh + (eh - bh) = eh from by omega]
    exact (isNth_endH hpop hq).1
  unfold tzcnt64
  apply tzAux_spec 64 _ (eh - bh) (by omega)
  · rw [Nat.mod_mod_of_dvd _ (Nat.pow_dvd_pow 2 (by omega))]
    exact hmod
  · rw [Nat.testBit_mod_two_pow]
    simp only [hbit, Bool.and_true]
    simp [show eh - bh < 64 from by omega]

theorem sel_low {x j s : Nat} (hn : IsNth x j s) (hj : j < popAux 64 x) :
    select64 x j = s :=
  select64_eq hn ((isNth_lt64_iff hn).mp hj)

theorem sel_high {x j s : Nat} (hn : IsNth x j s) (hj : ¬ j < popAux 64 x) (hs : s < 128) :
    select64 (x >>> 64) (j - popAux 64 x) = s - 64 ∧ 64 ≤ s := by
  have hs64 : ¬ s < 64 := fun hs' => hj ((isNth_lt64_iff hn).mpr hs')
  have hsh : IsNth (x >>> 64) (j - popAux 64 x) (s - 64) := isNth_shiftRight hn (by omega)
  exact ⟨select64_eq hsh (by omega), by omega⟩

/-- `pd_find_50` computes the tape slot range of quotient `q` from the
header geometry. -/
theorem pd_find_50_eq {pd : List Nat} {q : Nat} (r : Nat)
    (hpop : popAux 128 (headerOf pd) = 50) (hq : q < 50) :
    pd_find_50 q r pd =
      findTail (r % 256) pd (beginH (headerOf pd) q - q) (endH (headerOf pd) q - q) := by
  have hlt : headerOf pd < 2 ^ 101 := headerOf_lt pd
  have hlt128 : headerOf pd < 2 ^ 128 := lt_trans hlt (by norm_num)
  show findTail (r % 256) pd
      (sub64 (if q = 0 then 0
        else select128withPop64 (headerOf pd) (q - 1) (popcount64 (headerOf pd % 2 ^ 64)) + 1) q)
      (sub64 (select128withPop64 (headerOf pd) q (popcount64 (headerOf pd % 2 ^ 64))) q) = _
  have he : select128withPop64 (headerOf pd) q (popcount64 (headerOf pd % 2 ^ 64)) =
      endH (headerOf pd) q := by
    rw [popcount64_low]
    exact select128withPop64_eq hlt128 (isNth_endH hpop hq)
  have heB : sub64 (select128withPop64 (headerOf pd) q (popcount64 (headerOf pd % 2 ^ 64))) q =
      endH (headerOf pd) q - q := by
    rw [he]
    exact sub64_eq (q_le_endH hpop hq)
      (by have := endH_le hlt hpop hq; omega)
  rw [heB]
  by_cases hq0 : q = 0
  · subst hq0
    rw [if_pos rfl]
    have : sub64 0 0 = 0 := by decide
    rw [this]
    rfl
  · rw [if_neg hq0]
    have hb : select128withPop64 (headerOf pd) (q - 1) (popcount64 (headerOf pd % 2 ^ 64)) =
        beginH (headerOf pd) q - 1 := by
      rw [popcount64_low]
      exact select128withPop64_eq hlt128 (isNth_beginH hpop hq hq0)
    have hb1 : 1 ≤ beginH (headerOf pd) q := by
      have := q_le_beginH (h := headerOf pd) (q := q) hpop hq
      omega
    rw [hb, show beginH (headerOf pd) q - 1 + 1 = beginH (headerOf pd) q from by omega]
    rw [sub64_eq (q_le_beginH hpop hq) (by have := beginH_le hlt hpop hq; omega)]

/-- `pd_find_50_alt` agrees with `pd_find_50` on any block whose masked
header has popcount 50. -/
theorem pd_find_50_alt_eq {pd : List Nat} {q : Nat} (r : Nat)
    (hpop : popAux 128 (headerOf pd) = 50) (hq : q < 50) :
    pd_find_50_alt q r pd = pd_find_50 q r pd := by
  rw [pd_find_50_eq r hpop hq]
  have hlt : headerOf pd < 2 ^ 101 := headerOf_lt pd
  set h := headerOf pd with hh
  have hend : IsNth h q (endH h q) := isNth_endH hpop hq
  have hendle : endH h q ≤ 51 + q := endH_le hlt hpop hq
  have hqle : q ≤ endH h q := q_le_endH hpop hq
  have hendlt : endH h q < 128 := by omega
  show findTail (r % 256) pd
    (if q = 0 then ((0 : Nat), select64 h 0)
     else
      if q - 1 ≥ popcount64 (h % 2 ^ 64) then
        (sub64 (64 + select64 (h >>> 64) (q - 1 - popcount64 (h % 2 ^ 64)) + 1) q,
         sub64 (64 + select64 (h >>> 64) (q - popcount64 (h % 2 ^ 64))) q)
      else
        (sub64 (select64 h (q - 1) + 1) q,
         if q ≥ popcount64 (h % 2 ^ 64) then
           sub64 (64 + select64 (h >>> 64) (q - popcount64 (h % 2 ^ 64))) q
         else sub64 (select64 h q) q)).1
    (if q = 0 then ((0 : Nat), select64 h 0)
     else
      if q - 1 ≥ popcount64 (h % 2 ^ 64) then
        (sub64 (64 + select64 (h >>> 64) (q - 1 - popcount64 (h % 2 ^ 64)) + 1) q,
         sub64 (64 + select64 (h >>> 64) (q - popcount64 (h % 2 ^ 64))) q)
      else
        (sub64 (select64 h (q - 1) + 1) q,
         if q ≥ popcount64 (h % 2 ^ 64) then
           sub64 (64 + select64 (h >>> 64) (q - popcount64 (h % 2 ^ 64))) q
         else sub64 (select64 h q) q)).2
    = findTail (r % 256) pd (beginH h q - q) (endH h q - q)
  rw [popcount64_low h]
  by_cases hq0 : q = 0
  · subst hq0
    rw [if_pos rfl]
    have he0 : select64 h 0 = endH h 0 := select64_eq hend (by omega)
    simp only [he0]
    have : beginH h 0 - 0 = 0 := by unfold beginH; simp
    rw [this, Nat.sub_zero]
  · rw [if_neg hq0]
    have hbeg : IsNth h (q - 1) (beginH h q - 1) := isNth_beginH hpop hq hq0
    have hb1 : 1 ≤ beginH h q := by
      have := q_le_beginH (h := h) (q := q) hpop hq
      omega
    have hbegle : beginH h q ≤ 51 + q := beginH_le hlt hpop hq
    have hqleb : q ≤ beginH h q := q_le_beginH hpop hq
    by_cases hc1 : q - 1 ≥ popAux 64 h
    · rw [if_pos hc1]
      obtain ⟨hselb, hb64⟩ := sel_high hbeg (by omega) (by omega)
      have hc2 : ¬ q < popAux 64 h := by omega
      obtain ⟨hsele, he64⟩ := sel_high hend hc2 hendlt
      rw [hselb, hsele]
      have e1 : 64 + (beginH h q - 1 - 64) + 1 = beginH h q := by omega
      have e2 : 64 + (endH h q - 64) = endH h q := by omega
      rw [e1, e2, sub64_eq hqleb (by omega), sub64_eq hqle (by omega)]
    · rw [if_neg hc1]
      have hselb : select64 h (q - 1) = beginH h q - 1 := sel_low hbeg (by omega)
      rw [hselb, show beginH h q - 1 + 1 = beginH h q from by omega]
      rw [sub64_eq hqleb (by omega)]
      by_cases hc2 : q ≥ popAux 64 h
      · rw [if_pos hc2]
        obtain ⟨hsele, he64⟩ := sel_high hend (by omega) hendlt
        rw [hsele, show 64 + (endH h q - 64) = endH h q from by omega,
          sub64_eq hqle (by omega)]
      · rw [if_neg hc2]
        have hsele : select64 h q = endH h q := sel_low hend (by omega)
        rw [hsele, sub64_eq hqle (by omega)]

/-- `pd_find_50_alt2` agrees with `pd_find_50`. -/
theorem pd_find_50_alt2_eq {pd : List Nat} {q : Nat} (r : Nat)
    (hpop : popAux 128 (headerOf pd) = 50) (hq : q < 50) :
    pd_find_50_alt2 q r pd = pd_find_50 q r pd := by
  rw [pd_find_50_eq r hpop hq]
  have hlt : headerOf pd < 2 ^ 101 := headerOf_lt pd
  set h := headerOf pd with hh
  have hqleb : q ≤ beginH h q := q_le_beginH hpop hq
  have hble : beginH h q ≤ endH h q := beginH_le_endH hpop hq
  have hbegle : beginH h q ≤ 51 + q := beginH_le hlt hpop hq
  have hB : (if q > 0 then
      (if q - 1 < popcount64 (h % 2 ^ 64) then sub64 (select64 h (q - 1) + 1) q
       else sub64 (64 + select64 (h >>> 64) (q - 1 - popcount64 (h % 2 ^ 64)) + 1) q)
      else 0) = beginH h q - q := by
    rw [popcount64_low h]
    by_cases hq0 : q = 0
    · subst hq0
      simp [beginH]
    · rw [if_pos (by omega)]
      have hbeg : IsNth h (q - 1) (beginH h q - 1) := isNth_beginH hpop hq hq0
      have hb1 : 1 ≤ beginH h q := by omega
      by_cases hc1 : q - 1 < popAux 64 h
      · rw [if_pos hc1, sel_low hbeg hc1,
          show beginH h q - 1 + 1 = beginH h q from by omega,
          sub64_eq hqleb (by omega)]
      · rw [if_neg hc1]
        obtain ⟨hselb, hb64⟩ := sel_high hbeg hc1 (by omega)
        rw [hselb, show 64 + (beginH h q - 1 - 64) + 1 = beginH h q from by omega,
          sub64_eq hqleb (by omega)]
  show findTail (r % 256) pd _ _ = _
  rw [hB, show beginH h q - q + q = beginH h q from by omega, tz_gap hlt hpop hq,
    show beginH h q - q + (endH h q - beginH h q) = endH h q - q from by omega]

/-- `pd_find_50_alt3` agrees with `pd_find_50`. -/
theorem pd_find_50_alt3_eq {pd : List Nat} {q : Nat} (r : Nat)
    (hpop : popAux 128 (headerOf pd) = 50) (hq : q < 50) :
    pd_find_50_alt3 q r pd = pd_find_50 q r pd := by
  rw [pd_find_50_eq r hpop hq]
  have hlt : headerOf pd < 2 ^ 101 := headerOf_lt pd
  set h := headerOf pd with hh
  have hqleb : q ≤ beginH h q := q_le_beginH hpop hq
  have hble : beginH h q ≤ endH h q := beginH_le_endH hpop hq
  have hbegle : beginH h q ≤ 51 + q := beginH_le hlt hpop hq
  have hB : (if q > 0 then
      sub64 (if q - 1 < popcount64 (h % 2 ^ 64) then select64 h (q - 1)
        else 64 + select64 (h >>> 64) (q - 1 - popcount64 (h % 2 ^ 64))) (q - 1)
      else 0) = beginH h q - q := by
    rw [popcount64_low h]
    by_cases hq0 : q = 0
    · subst hq0
      simp [beginH]
    · rw [if_pos (by omega)]
      have hbeg : IsNth h (q - 1) (beginH h q - 1) := isNth_beginH hpop hq hq0
      have hb1 : 1 ≤ beginH h q := by omega
      have hjle : q - 1 ≤ beginH h q - 1 := by
        have := nth_lower_bound hbeg
        omega
      by_cases hc1 : q - 1 < popAux 64 h
      · rw [if_pos hc1, sel_low hbeg hc1, sub64_eq hjle (by omega)]
        omega
      · rw [if_neg hc1]
        obtain ⟨hselb, hb64⟩ := sel_high hbeg hc1 (by omega)
        rw [hselb, show 64 + (beginH h q - 1 - 64) = beginH h q - 1 from by omega,
          sub64_eq hjle (by omega)]
        omega
  show findTail (r % 256) pd _ _ = _
  rw [hB, show beginH h q - q + q = beginH h q from by omega, tz_gap hlt hpop hq,
    show beginH h q - q + (endH h q - beginH h q) = endH h q - q from by omega]

theorem pow_two_shiftLeft_mod {n : Nat} (hn : n < 64) : (1 : Nat) <<< n % 2 ^ 64 = 2 ^ n := by
  rw [Nat.shiftLeft_eq, Nat.one_mul]
  exact Nat.mod_eq_of_lt (Nat.pow_lt_pow_right (by norm_num) hn)

theorem and63_eq {s : Nat} (hs : s < 64) : 63 &&& s = s := by
  rw [Nat.and_comm, show (63 : Nat) = 2 ^ 6 - 1 from by norm_num,
    Nat.and_pow_two_sub_one_eq_mod]
  exact Nat.mod_eq_of_lt hs

/-- The `begin` rank of `pd_find_50_alt4`: popcount of the header bits
below `q - 1` equals the 101-bit rank at width `q - 1`. -/
theorem alt4_p_eq {h q : Nat} (hq1 : 1 ≤ q) (hq : q < 50) :
    popcount64 (h &&& (((1 <<< (q - 1)) % 2 ^ 64) - 1)) = popAux (q - 1) h := by
  rw [pow_two_shiftLeft_mod (by omega), Nat.and_pow_two_sub_one_eq_mod,
    popcount64_eq, popAux_eq_of_lt (Nat.mod_lt h (Nat.pos_pow_of_pos _ (by norm_num))) (by omega),
    popAux_mod h (Nat.le_refl _)]

/-- The `begin` computation shared by `alt4` and `alt5` (after rewriting
`alt5`'s operands): a single select over the header shifted by `q - 1`. -/
theorem alt4_begin_eq {h q : Nat} (hlt : h < 2 ^ 101) (hpop : popAux 128 h = 50)
    (hq : q < 50) (hq0 : q ≠ 0) :
    select64 (h >>> (q - 1)) (q - 1 - popAux (q - 1) h) = beginH h q - q := by
  have hbeg : IsNth h (q - 1) (beginH h q - 1) := isNth_beginH hpop hq hq0
  have hb1 : 1 ≤ beginH h q := by
    have := q_le_beginH (h := h) (q := q) hpop hq
    omega
  have hjle : q - 1 ≤ beginH h q - 1 := by
    have := nth_lower_bound hbeg
    omega
  have hble : beginH h q ≤ 51 + q := beginH_le hlt hpop hq
  have hsh : IsNth (h >>> (q - 1)) (q - 1 - popAux (q - 1) h) (beginH h q - 1 - (q - 1)) :=
    isNth_shiftRight hbeg hjle
  rw [select64_eq hsh (by omega)]
  omega

/-- `pd_find_50_alt4` agrees with `pd_find_50`. -/
theorem pd_find_50_alt4_eq {pd : List Nat} {q : Nat} (r : Nat)
    (hpop : popAux 128 (headerOf pd) = 50) (hq : q < 50) :
    pd_find_50_alt4 q r pd = pd_find_50 q r pd := by
  rw [pd_find_50_eq r hpop hq]
  have hlt : headerOf pd < 2 ^ 101 := headerOf_lt pd
  set h := headerOf pd with hh
  have hqleb : q ≤ beginH h q := q_le_beginH hpop hq
  have hble : beginH h q ≤ endH h q := beginH_le_endH hpop hq
  have hB : (if q > 0 then
      select64 (h >>> (q - 1))
        (q - 1 - popcount64 (h &&& (((1 <<< (q - 1)) % 2 ^ 64) - 1)))
      else 0) = beginH h q - q := by
    by_cases hq0 : q = 0
    · subst hq0
      simp [beginH]
    · rw [if_pos (by omega), alt4_p_eq (by omega) hq, alt4_begin_eq hlt hpop hq hq0]
  show findTail (r % 256) pd _ _ = _
  rw [hB, show beginH h q - q + q = beginH h q from by omega, tz_gap hlt hpop hq,
    show beginH h q - q + (endH h q - beginH h q) = endH h q - q from by omega]

theorem select64_alt_neg_one (x : Nat) : select64_alt x (-1) = 0 := by
  unfold select64_alt pdep64
  have e0 : ((-1 : Int) + 1).toNat = 0 := by norm_num
  rw [e0]
  have e1 : ((1 : Nat) <<< 0 % 2 ^ 64) >>> 1 = 0 := by
    rw [pow_two_shiftLeft_mod (by norm_num)]
    rfl
  rw [e1, Nat.zero_mod, pdepAux_src_zero]
  unfold tzcnt64
  rw [Nat.zero_mod, tzAux_zero_val]
  rfl

theorem select64_alt_of_nat (x : Nat) {j : Nat} (hj : j ≤ 62) :
    select64_alt x (j : Int) = 63 &&& select64 x j := by
  unfold select64_alt select64 pdep64
  have e0 : ((j : Int) + 1).toNat = j + 1 := by omega
  have e1 : ((1 : Nat) <<< (j + 1) % 2 ^ 64) >>> 1 = 2 ^ j := by
    rw [pow_two_shiftLeft_mod (by omega), Nat.shiftRight_one, Nat.pow_succ]
    exact Nat.mul_div_cancel _ (by norm_num)
  have e2 : (1 : Nat) <<< j % 2 ^ 64 = 2 ^ j := pow_two_shiftLeft_mod (by omega)
  rw [e0, e1, e2]
  have e3 : (2 : Nat) ^ j % 2 ^ 64 = 2 ^ j :=
    Nat.mod_eq_of_lt (Nat.pow_lt_pow_right (by norm_num) (by omega))
  rw [e3]

/-- `pd_find_50_alt5` agrees with `pd_find_50`. -/
theorem pd_find_50_alt5_eq {pd : List Nat} {q : Nat} (r : Nat)
    (hpop : popAux 128 (headerOf pd) = 50) (hq : q < 50) :
    pd_find_50_alt5 q r pd = pd_find_50 q r pd := by
  rw [pd_find_50_eq r hpop hq]
  show findTail (r % 256) pd _ _ = _
  have hlt : headerOf pd < 2 ^ 101 := headerOf_lt pd
  set h := headerOf pd with hh
  have hqleb : q ≤ beginH h q := q_le_beginH hpop hq
  have hble : beginH h q ≤ endH h q := beginH_le_endH hpop hq
  have hble51 : beginH h q ≤ 51 + q := beginH_le hlt hpop hq
  have hB : select64_alt ((h <<< 1) >>> (q &&& 63))
      ((q : Int) - 1 -
        (popcount64 (h &&& ((((1 <<< q) % 2 ^ 64) - 1) >>> 1)) : Int)) = beginH h q - q := by
    by_cases hq0 : q = 0
    · subst hq0
      have em : (((1 <<< 0) % 2 ^ 64 : Nat) - 1) >>> 1 = 0 := by decide
      rw [em]
      have ep : popcount64 (h &&& 0) = 0 := by
        rw [Nat.and_zero]
        decide
      rw [ep]
      show select64_alt ((h <<< 1) >>> (0 &&& 63)) (-1) = beginH h 0 - 0
      rw [select64_alt_neg_one]
      simp [beginH]
    · -- mask = 2^(q-1) - 1
      have hpow : (2 : Nat) ^ q = 2 * 2 ^ (q - 1) := by
        conv_lhs => rw [show q = q - 1 + 1 from by omega]
        rw [Nat.pow_succ]
        ring
      have em : (((1 <<< q) % 2 ^ 64 : Nat) - 1) >>> 1 = 2 ^ (q - 1) - 1 := by
        rw [pow_two_shiftLeft_mod (by omega), Nat.shiftRight_one]
        omega
      have ep : popcount64 (h &&& ((((1 <<< q) % 2 ^ 64) - 1) >>> 1)) = popAux (q - 1) h := by
        rw [em, Nat.and_pow_two_sub_one_eq_mod, popcount64_eq,
          popAux_eq_of_lt (Nat.mod_lt h (Nat.pos_pow_of_pos _ (by norm_num))) (by omega),
          popAux_mod h (Nat.le_refl _)]
      have hple : popAux (q - 1) h ≤ q - 1 := popAux_le _ _
      have ex : (h <<< 1) >>> (q &&& 63) = h >>> (q - 1) := by
        have hq63 : q &&& 63 = q := by
          rw [show (63 : Nat) = 2 ^ 6 - 1 from by norm_num, Nat.and_pow_two_sub_one_eq_mod]
          exact Nat.mod_eq_of_lt (by omega)
        rw [hq63, Nat.shiftLeft_eq, Nat.shiftRight_eq_div_pow, Nat.shiftRight_eq_div_pow,
          Nat.pow_one, hpow, Nat.mul_comm h 2,
          Nat.mul_div_mul_left h (2 ^ (q - 1)) (by norm_num)]
      have ej : ((q : Int) - 1 - (popcount64 (h &&& ((((1 <<< q) % 2 ^ 64) - 1) >>> 1)) : Int)) =
          ((q - 1 - popAux (q - 1) h : Nat) : Int) := by
        rw [ep]
        omega
      rw [ej, ex, select64_alt_of_nat _ (by omega), alt4_begin_eq hlt hpop hq hq0,
        and63_eq (by omega)]
  simp only [Nat.cast_one] at hB
  rw [hB, show beginH h q - q + q = beginH h q from by omega, tz_gap hlt hpop hq,
    show beginH h q - q + (endH h q - beginH h q) = endH h q - q from by omega]

/-! ### The abstract PD: 50 class sizes and a 51-byte tape -/

/-- Sum of the first `k` class sizes: the tape index where class `k`
begins. -/
def psum (sizes : List Nat) (k : Nat) : Nat := (sizes.take k).sum

/-- The unary header encoding: for class sizes `c_0, …, c_49`, the bit
pattern (LSB first) `0^(c_0) 1 0^(c_1) 1 … 0^(c_49) 1` followed by zero
padding. -/
def encodeHeader : List Nat → Nat
  | [] => 0
  | c :: rest => 2 ^ c + 2 ^ (c + 1) * encodeHeader rest

/-- Abstract PD state: the 50 class sizes and the full 51-byte tape
(bytes past the fill point are junk but are part of the state). -/
structure Abs where
  sizes : List Nat
  tape : List Nat

/-- The 13 header bytes of a header value, little-endian. -/
def headerBytesList (h : Nat) : List Nat :=
  (List.range 13).map (fun j => (h >>> (8 * j)) % 256)

/-- Concretization of an abstract PD into its 64-byte block. -/
def encodePD (a : Abs) : List Nat := headerBytesList (encodeHeader a.sizes) ++ a.tape

/-- Well-formedness of an abstract PD: 50 classes, at most 51 occupied
slots, a 51-byte tape of bytes, and each class's slice of the tape
non-decreasing. -/
def absWF (a : Abs) : Prop :=
  a.sizes.length = 50 ∧ a.sizes.sum ≤ 51 ∧ a.tape.length = 51 ∧
  (∀ b ∈ a.tape, b < 256) ∧
  (∀ q i, q < 50 → psum a.sizes q ≤ i → i + 1 < psum a.sizes (q + 1) →
    a.tape.getD i 0 ≤ a.tape.getD (i + 1) 0)

/-- The insertion scan on the abstract tape, mirroring `scanIdx`. -/
def tapeScan (r : Nat) (t : List Nat) (i : Nat) : Nat → Nat
  | 0 => i
  | c + 1 => if r ≤ t.getD i 0 then i else tapeScan r t (i + 1) c

/-- Abstract insertion: bump class `q`'s size and insert `r` into the
tape at the scanned position, dropping the last (unoccupied) byte. -/
def absAdd (q r : Nat) (a : Abs) : Abs :=
  let i := tapeScan r a.tape (psum a.sizes q) (psum a.sizes (q + 1) - psum a.sizes q)
  { sizes := a.sizes.set q (a.sizes.getD q 0 + 1),
    tape := a.tape.take i ++ [r] ++ (a.tape.drop i).take (50 - i) }

/-! ### Facts about `psum` and `encodeHeader` -/

theorem psum_zero (l : List Nat) : psum l 0 = 0 := rfl

theorem psum_cons_succ (c : Nat) (rest : List Nat) (k : Nat) :
    psum (c :: rest) (k + 1) = c + psum rest k := by
  unfold psum
  rw [List.take_succ_cons, List.sum_cons]

theorem psum_mono (l : List Nat) {k k' : Nat} (h : k ≤ k') : psum l k ≤ psum l k' := by
  unfold psum
  have e : l.take k = (l.take k').take k := by rw [List.take_take, Nat.min_eq_left h]
  rw [e]
  exact List.Sublist.sum_le_sum (List.take_sublist k (l.take k')) (by intro b _; omega)

theorem psum_le_sum (l : List Nat) (k : Nat) : psum l k ≤ l.sum := by
  unfold psum
  exact List.Sublist.sum_le_sum (List.take_sublist k l) (by intro b _; omega)

theorem psum_full (l : List Nat) {k : Nat} (h : l.length ≤ k) : psum l k = l.sum := by
  unfold psum
  rw [List.take_of_length_le h]

theorem encodeHeader_cons (c : Nat) (rest : List Nat) :
    encodeHeader (c :: rest) = 2 ^ c + 2 ^ (c + 1) * encodeHeader rest := rfl

theorem encodeHeader_lt (l : List Nat) : encodeHeader l < 2 ^ (l.length + l.sum) := by
  induction l with
  | nil => simp [encodeHeader]
  | cons c rest ih =>
    rw [encodeHeader_cons]
    have h1 : encodeHeader rest + 1 ≤ 2 ^ (rest.length + rest.sum) := ih
    calc 2 ^ c + 2 ^ (c + 1) * encodeHeader rest
        < 2 ^ (c + 1) + 2 ^ (c + 1) * encodeHeader rest := by
          have : (2 : Nat) ^ c < 2 ^ (c + 1) := Nat.pow_lt_pow_right (by norm_num) (by omega)
          omega
    _ = 2 ^ (c + 1) * (encodeHeader rest + 1) := by ring
    _ ≤ 2 ^ (c + 1) * 2 ^ (rest.length + rest.sum) := Nat.mul_le_mul_left _ h1
    _ = 2 ^ (c + 1 + (rest.length + rest.sum)) := by rw [← Nat.pow_add]
    _ = 2 ^ ((c :: rest).length + (c :: rest).sum) := by
        rw [List.length_cons, List.sum_cons]
        rw [show c + 1 + (rest.length + rest.sum) = rest.length + 1 + (c + rest.sum) from by omega]

theorem encodeHeader_mod_c (c : Nat) (rest : List Nat) :
    encodeHeader (c :: rest) % 2 ^ c = 0 := by
  rw [encodeHeader_cons]
  have : (2 : Nat) ^ c + 2 ^ (c + 1) * encodeHeader rest =
      2 ^ c * (1 + 2 * encodeHeader rest) := by ring
  rw [this]
  exact Nat.mul_mod_right _ _

theorem encodeHeader_div_c (c : Nat) (rest : List Nat) :
    encodeHeader (c :: rest) / 2 ^ c = 1 + 2 * encodeHeader rest := by
  rw [encodeHeader_cons]
  have h : (2 : Nat) ^ c + 2 ^ (c + 1) * encodeHeader rest =
      2 ^ c * (1 + 2 * encodeHeader rest) := by ring
  rw [h]
  exact Nat.mul_div_cancel_left _ (Nat.pos_pow_of_pos _ (by norm_num))

theorem encodeHeader_shift (c : Nat) (rest : List Nat) :
    encodeHeader (c :: rest) >>> (c + 1) = encodeHeader rest := by
  rw [Nat.shiftRight_eq_div_pow]
  have h : (2 : Nat) ^ (c + 1) = 2 ^ c * 2 := by rw [Nat.pow_succ]
  rw [h, ← Nat.div_div_eq_div_mul, encodeHeader_div_c]
  omega

theorem encodeHeader_testBit_c (c : Nat) (rest : List Nat) :
    (encodeHeader (c :: rest)).testBit c = true := by
  rw [testBit_eq_true_iff, encodeHeader_div_c]
  omega

theorem encodeHeader_popAux_c (c : Nat) (rest : List Nat) :
    popAux c (encodeHeader (c :: rest)) = 0 := by
  have h := popAux_mod (m := c) (encodeHeader (c :: rest)) (Nat.le_refl c)
  rw [encodeHeader_mod_c, popAux_zero] at h
  omega

theorem encodeHeader_popAux_c1 (c : Nat) (rest : List Nat) :
    popAux (c + 1) (encodeHeader (c :: rest)) = 1 := by
  rw [popAux_succ, encodeHeader_popAux_c, encodeHeader_div_c]
  omega

theorem popAux_encodeHeader (l : List Nat) {w : Nat} (h : l.length + l.sum ≤ w) :
    popAux w (encodeHeader l) = l.length := by
  induction l generalizing w with
  | nil => simp [encodeHeader, popAux_zero]
  | cons c rest ih =>
    rw [List.length_cons]
    have hw : c + 1 ≤ w := by
      have := List.length_cons c rest
      have := List.sum_cons (a := c) (l := rest)
      simp [List.length_cons, List.sum_cons] at h
      omega
    have hsplit := popAux_add (c + 1) (w - (c + 1)) (encodeHeader (c :: rest))
    rw [show c + 1 + (w - (c + 1)) = w from by omega] at hsplit
    rw [hsplit, encodeHeader_popAux_c1, encodeHeader_shift]
    rw [ih (by simp [List.length_cons, List.sum_cons] at h; omega)]
    omega

theorem isNth_encodeHeader (l : List Nat) {j : Nat} (hj : j < l.length) :
    IsNth (encodeHeader l) j (j + psum l (j + 1)) := by
  induction l generalizing j with
  | nil => simp at hj
  | cons c rest ih =>
    match j with
    | 0 =>
      rw [show 0 + psum (c :: rest) 1 = c from by rw [psum_cons_succ, psum_zero]; omega]
      exact ⟨encodeHeader_testBit_c c rest, encodeHeader_popAux_c c rest⟩
    | j + 1 =>
      have hj' : j < rest.length := by simp at hj; omega
      obtain ⟨hb, hp⟩ := ih hj'
      have hpos : j + 1 + psum (c :: rest) (j + 2) = (c + 1) + (j + psum rest (j + 1)) := by
        rw [psum_cons_succ]
        omega
      rw [hpos]
      constructor
      · rw [show (c + 1) + (j + psum rest (j + 1)) = (c + 1) + (j + psum rest (j + 1)) from rfl]
        have := encodeHeader_shift c rest
        rw [← this] at hb
        rw [Nat.testBit_shiftRight] at hb
        exact hb
      · have hsplit := popAux_add (c + 1) (j + psum rest (j + 1)) (encodeHeader (c :: rest))
        rw [hsplit, encodeHeader_popAux_c1, encodeHeader_shift, hp]
        omega

/-! ### Reading an encoded PD -/

theorem headerBytesList_length (h : Nat) : (headerBytesList h).length = 13 := by
  simp [headerBytesList]

theorem byteAt_headerBytes {h : Nat} {t : List Nat} {j : Nat} (hj : j < 13) :
    byteAt (headerBytesList h ++ t) j = (h >>> (8 * j)) % 256 := by
  unfold byteAt
  rw [List.getD_append _ _ _ _ (by rw [headerBytesList_length]; omega)]
  unfold headerBytesList
  rw [List.getD_eq_getElem?_getD, List.getElem?_map, List.getElem?_range hj]
  simp [Nat.mod_mod_of_dvd]

theorem byteAt_encodePD_tape {a : Abs} (hlen : a.tape.length = 51)
    (hbytes : ∀ b ∈ a.tape, b < 256) {i : Nat} (hi : i < 51) :
    byteAt (encodePD a) (13 + i) = a.tape.getD i 0 := by
  unfold byteAt encodePD
  rw [List.getD_append_right _ _ _ _ (by rw [headerBytesList_length]; omega),
    headerBytesList_length, show 13 + i - 13 = i from by omega]
  have hmem : a.tape.getD i 0 ∈ a.tape := by
    rw [List.getD_eq_getElem _ _ (by omega)]
    exact List.getElem_mem _
  exact Nat.mod_eq_of_lt (hbytes _ hmem)

theorem readLE_headerBytes (h : Nat) (t : List Nat) :
    ∀ n, n ≤ 13 → readLE (headerBytesList h ++ t) n = h % 2 ^ (8 * n) := by
  intro n
  induction n with
  | zero => intro _; simp [readLE, Nat.mod_one]
  | succ n ih =>
    intro hn
    show readLE (headerBytesList h ++ t) n + byteAt (headerBytesList h ++ t) n * 2 ^ (8 * n) = _
    rw [ih (by omega), byteAt_headerBytes (by omega)]
    have e : (2 : Nat) ^ (8 * (n + 1)) = 2 ^ (8 * n) * 2 ^ 8 := by
      rw [← Nat.pow_add]
      rw [show 8 * n + 8 = 8 * (n + 1) from by omega]
    rw [e, Nat.mod_mul, Nat.shiftRight_eq_div_pow]
    norm_num
    ring

theorem encodeHeader_lt_101 {l : List Nat} (h50 : l.length = 50) (hsum : l.sum ≤ 51) :
    encodeHeader l < 2 ^ 101 :=
  Nat.lt_of_lt_of_le (encodeHeader_lt l)
    (Nat.pow_le_pow_right (by norm_num) (by omega))

theorem pdHeader13_encodePD {a : Abs} (h50 : a.sizes.length = 50)
    (hsum : a.sizes.sum ≤ 51) : pdHeader13 (encodePD a) = encodeHeader a.sizes := by
  have hlt : encodeHeader a.sizes < 2 ^ 101 := encodeHeader_lt_101 h50 hsum
  unfold pdHeader13 encodePD
  rw [readLE_headerBytes _ _ 13 (Nat.le_refl _)]
  rw [Nat.mod_eq_of_lt (Nat.lt_of_lt_of_le hlt (Nat.pow_le_pow_right (by norm_num) (by norm_num)))]
  rw [Nat.and_pow_two_sub_one_eq_mod, Nat.mod_eq_of_lt hlt]

theorem headerOf_encodePD {a : Abs} (h50 : a.sizes.length = 50)
    (hsum : a.sizes.sum ≤ 51) : headerOf (encodePD a) = encodeHeader a.sizes := by
  have hlt : encodeHeader a.sizes < 2 ^ 101 := encodeHeader_lt_101 h50 hsum
  unfold headerOf
  rw [Nat.and_pow_two_sub_one_eq_mod]
  have e : readLE (encodePD a) 16 = readLE (encodePD a) 13 +
      (byteAt (encodePD a) 13 * 8 + byteAt (encodePD a) 14 * 2048 +
        byteAt (encodePD a) 15 * 524288) * 2 ^ 101 := by
    show readLE (encodePD a) 12 + byteAt (encodePD a) 12 * 2 ^ (8 * 12) +
        byteAt (encodePD a) 13 * 2 ^ (8 * 13) + byteAt (encodePD a) 14 * 2 ^ (8 * 14) +
        byteAt (encodePD a) 15 * 2 ^ (8 * 15) = _
    show readLE (encodePD a) 12 + byteAt (encodePD a) 12 * 2 ^ (8 * 12) +
        byteAt (encodePD a) 13 * 2 ^ (8 * 13) + byteAt (encodePD a) 14 * 2 ^ (8 * 14) +
        byteAt (encodePD a) 15 * 2 ^ (8 * 15) =
      readLE (encodePD a) 12 + byteAt (encodePD a) 12 * 2 ^ (8 * 12) +
        (byteAt (encodePD a) 13 * 8 + byteAt (encodePD a) 14 * 2048 +
          byteAt (encodePD a) 15 * 524288) * 2 ^ 101
    norm_num
    ring
  rw [e]
  unfold encodePD
  rw [readLE_headerBytes _ _ 13 (Nat.le_refl _), Nat.add_mul_mod_self_right]
  rw [Nat.mod_mod_of_dvd _ (Nat.pow_dvd_pow 2 (by norm_num)), Nat.mod_eq_of_lt hlt]

theorem popAux_headerOf_encodePD {a : Abs} (h50 : a.sizes.length = 50)
    (hsum : a.sizes.sum ≤ 51) : popAux 128 (headerOf (encodePD a)) = 50 := by
  rw [headerOf_encodePD h50 hsum, popAux_encodeHeader a.sizes (by omega)]
  exact h50

theorem select128_encodeHeader_49 {l : List Nat} (h50 : l.length = 50)
    (hsum : l.sum ≤ 51) : select128 (encodeHeader l) 49 = 49 + l.sum := by
  have hn := isNth_encodeHeader l (j := 49) (by omega)
  rw [psum_full l (by omega)] at hn
  exact select128_eq
    (Nat.lt_of_lt_of_le (encodeHeader_lt_101 h50 hsum)
      (Nat.pow_le_pow_right (by norm_num) (by norm_num))) hn

theorem pdFillRaw_encodePD {a : Abs} (h50 : a.sizes.length = 50)
    (hsum : a.sizes.sum ≤ 51) : pdFillRaw (encodePD a) = a.sizes.sum := by
  unfold pdFillRaw
  rw [pdHeader13_encodePD h50 hsum, select128_encodeHeader_49 h50 hsum]
  have h32 : (2 : Nat) ^ 32 = 4294967296 := by norm_num
  rw [h32]
  omega

/-! ### The byte-equality mask and the shared find tail -/

theorem cmpAux_lt (r : Nat) (pd : List Nat) : ∀ n, cmpAux r pd n < 2 ^ n := by
  intro n
  induction n with
  | zero => simp [cmpAux]
  | succ n ih =>
    show cmpAux r pd n + (if byteAt pd n = r then 1 else 0) * 2 ^ n < 2 ^ (n + 1)
    have : (if byteAt pd n = r then 1 else 0) ≤ 1 := by split <;> omega
    have h2 : (2 : Nat) ^ (n + 1) = 2 ^ n + 2 ^ n := by rw [Nat.pow_succ]; omega
    nlinarith [ih]

theorem cmpAux_testBit (r : Nat) (pd : List Nat) :
    ∀ n i, (cmpAux r pd n).testBit i = decide (i < n ∧ byteAt pd i = r) := by
  intro n
  induction n with
  | zero =>
    intro i
    simp [cmpAux]
  | succ n ih =>
    intro i
    have e : cmpAux r pd (n + 1) = 2 ^ n * (if byteAt pd n = r then 1 else 0) + cmpAux r pd n := by
      show cmpAux r pd n + (if byteAt pd n = r then 1 else 0) * 2 ^ n = _
      ring
    rw [e, Nat.testBit_mul_pow_two_add _ (cmpAux_lt r pd n)]
    by_cases hi : i < n
    · rw [if_pos hi, ih]
      have : i < n + 1 := by omega
      simp [hi, this]
    · rw [if_neg hi]
      by_cases hieq : i = n
      · subst hieq
        rw [Nat.sub_self]
        by_cases hb : byteAt pd i = r
        · simp [hb]
        · simp [hb]
      · have h1 : ¬ i < n + 1 := by omega
        have h2 : 1 ≤ i - n := by omega
        have hbit : (if byteAt pd n = r then 1 else 0 : Nat).testBit (i - n) = false := by
          apply Nat.testBit_lt_two_pow
          have : (if byteAt pd n = r then 1 else 0 : Nat) ≤ 1 := by split <;> omega
        
          calc (if byteAt pd n = r then 1 else 0 : Nat) < 2 := by omega
            _ = 2 ^ 1 := by norm_num
            _ ≤ 2 ^ (i - n) := Nat.pow_le_pow_right (by norm_num) h2
        rw [hbit]
        simp [h1]

/-- The shared find tail tests exactly: some tape index in
`[beginIdx, endIdx)` holds byte `r`. -/
theorem findTail_iff {r : Nat} {pd : List Nat} {b e : Nat} (he : e ≤ 51) :
    findTail r pd b e = true ↔ ∃ i, b ≤ i ∧ i < e ∧ byteAt pd (13 + i) = r := by
  unfold findTail
  rw [pow_two_shiftLeft_mod (by omega)]
  show decide (((cmpMask r pd >>> 13) &&& (2 ^ e - 1)) >>> b ≠ 0) = true ↔ _
  rw [Nat.and_pow_two_sub_one_eq_mod, decide_eq_true_eq]
  constructor
  · intro hne
    obtain ⟨k, hk⟩ := Nat.ne_zero_implies_bit_true hne
    rw [Nat.testBit_shiftRight, Nat.testBit_mod_two_pow] at hk
    have hklt : b + k < e := by
      by_contra hc
      simp [show ¬ (b + k < e) from hc] at hk
    rw [Nat.testBit_shiftRight] at hk
    have hbyte : (cmpMask r pd).testBit (13 + (b + k)) = true := by
      cases hb : (cmpMask r pd).testBit (13 + (b + k)) with
      | true => rfl
      | false => simp [hklt, hb] at hk
    unfold cmpMask at hbyte
    rw [cmpAux_testBit] at hbyte
    refine ⟨b + k, by omega, hklt, ?_⟩
    have := of_decide_eq_true hbyte
    exact this.2
  · intro ⟨i, hbi, hie, hbyte⟩
    apply Nat.pos_iff_ne_zero.mp
    have hbit : (((cmpMask r pd >>> 13) % 2 ^ e) >>> b).testBit (i - b) = true := by
      rw [Nat.testBit_shiftRight, Nat.testBit_mod_two_pow, Nat.testBit_shiftRight]
      have e1 : b + (i - b) = i := by omega
      rw [e1]
      have e2 : (cmpMask r pd).testBit (13 + i) = true := by
        unfold cmpMask
        rw [cmpAux_testBit]
        exact decide_eq_true_eq.mpr ⟨by omega, hbyte⟩
      simp [e1, e2, hie]
    exact Nat.lt_of_lt_of_le (by norm_num) (Nat.testBit_implies_ge hbit)

theorem endH_encodeHeader {l : List Nat} (h50 : l.length = 50) (hsum : l.sum ≤ 51)
    {q : Nat} (hq : q < 50) : endH (encodeHeader l) q = q + psum l (q + 1) := by
  have hpop : popAux 128 (encodeHeader l) = 50 := by
    rw [popAux_encodeHeader l (by omega)]; exact h50
  exact isNth_unique (isNth_endH hpop hq) (isNth_encodeHeader l (by omega))

theorem beginH_encodeHeader {l : List Nat} (h50 : l.length = 50) (hsum : l.sum ≤ 51)
    {q : Nat} (hq : q < 50) : beginH (encodeHeader l) q = q + psum l q := by
  have hpop : popAux 128 (encodeHeader l) = 50 := by
    rw [popAux_encodeHeader l (by omega)]; exact h50
  unfold beginH
  by_cases hq0 : q = 0
  · subst hq0
    simp [psum_zero]
  · rw [if_neg hq0]
    have h1 : IsNth (encodeHeader l) (q - 1) (nthAux 128 (encodeHeader l) (q - 1)) :=
      (nthAux_spec 128 _ (q - 1) (by omega)).1
    have h2 : IsNth (encodeHeader l) (q - 1) ((q - 1) + psum l ((q - 1) + 1)) :=
      isNth_encodeHeader l (by omega)
    rw [isNth_unique h1 h2, show q - 1 + 1 = q from by omega]
    omega

/-- `pd_find_50` on an encoded PD: true iff some slot of class `q` holds
remainder `r`. -/
theorem pd_find_50_encode {a : Abs} (hWF : absWF a) {q r : Nat} (hq : q < 50) (hr : r < 256) :
    (pd_find_50 q r (encodePD a) = true ↔
      ∃ i, psum a.sizes q ≤ i ∧ i < psum a.sizes (q + 1) ∧ a.tape.getD i 0 = r) := by
  obtain ⟨h50, hsum, hlen, hbytes, hsort⟩ := hWF
  have hH := headerOf_encodePD h50 hsum
  have hpop : popAux 128 (headerOf (encodePD a)) = 50 := popAux_headerOf_encodePD h50 hsum
  rw [pd_find_50_eq r hpop hq, hH, beginH_encodeHeader h50 hsum hq,
    endH_encodeHeader h50 hsum hq,
    show q + psum a.sizes q - q = psum a.sizes q from by omega,
    show q + psum a.sizes (q + 1) - q = psum a.sizes (q + 1) from by omega]
  have hple : psum a.sizes (q + 1) ≤ 51 :=
    Nat.le_trans (psum_le_sum a.sizes (q + 1)) hsum
  rw [findTail_iff hple, Nat.mod_eq_of_lt hr]
  constructor
  · intro ⟨i, h1, h2, h3⟩
    refine ⟨i, h1, h2, ?_⟩
    rw [← byteAt_encodePD_tape hlen hbytes (by omega)]
    exact h3
  · intro ⟨i, h1, h2, h3⟩
    refine ⟨i, h1, h2, ?_⟩
    rw [byteAt_encodePD_tape hlen hbytes (by omega)]
    exact h3

/-! ### Inserting a slot: the header update of `pd_add_50` -/

theorem or_shiftLeft_eq_add {x y k : Nat} (hx : x < 2 ^ k) :
    x ||| (y <<< k) = 2 ^ k * y + x := by
  rw [Nat.shiftLeft_eq, Nat.mul_comm y (2 ^ k), Nat.mul_add_lt_is_or hx y]
  exact Nat.or_comm x (2 ^ k * y)

theorem sum_set_succ : ∀ (l : List Nat) (q : Nat), q < l.length →
    (l.set q (l.getD q 0 + 1)).sum = l.sum + 1 := by
  intro l
  induction l with
  | nil => intro q hq; simp at hq
  | cons c rest ih =>
    intro q hq
    match q with
    | 0 =>
      simp only [List.set, List.getD_cons_zero, List.sum_cons]
      omega
    | q + 1 =>
      have hq' : q < rest.length := by simp at hq; omega
      simp only [List.set, List.getD_cons_succ, List.sum_cons, ih q hq']
      omega

theorem psum_set_succ : ∀ (l : List Nat) (q k : Nat), q < l.length →
    psum (l.set q (l.getD q 0 + 1)) k = psum l k + (if q < k then 1 else 0) := by
  intro l
  induction l with
  | nil => intro q k hq; simp at hq
  | cons c rest ih =>
    intro q k hq
    match q with
    | 0 =>
      match k with
      | 0 => simp [psum_zero]
      | k + 1 =>
        simp only [List.set, List.getD_cons_zero]
        rw [psum_cons_succ, psum_cons_succ]
        simp
        omega
    | q + 1 =>
      have hq' : q < rest.length := by simp at hq; omega
      match k with
      | 0 => simp [psum_zero]
      | k + 1 =>
        simp only [List.set, List.getD_cons_succ]
        rw [psum_cons_succ, psum_cons_succ, ih q k hq']
        by_cases hqk : q < k
        · rw [if_pos hqk, if_pos (show q + 1 < k + 1 from by omega)]
          omega
        · rw [if_neg hqk, if_neg (show ¬ q + 1 < k + 1 from by omega)]
          omega

theorem encodeHeader_insert_arith : ∀ (l : List Nat) (q : Nat), q < l.length →
    encodeHeader l % 2 ^ (q + psum l q) +
      2 ^ (q + psum l (q + 1) + 1) * (encodeHeader l >>> (q + psum l (q + 1))) =
    encodeHeader (l.set q (l.getD q 0 + 1)) := by
  intro l
  induction l with
  | nil => intro q hq; simp at hq
  | cons c rest ih =>
    intro q hq
    match q with
    | 0 =>
      rw [psum_zero, psum_cons_succ, psum_zero]
      simp only [Nat.add_zero, Nat.zero_add, Nat.pow_zero, Nat.mod_one]
      rw [Nat.shiftRight_eq_div_pow, encodeHeader_div_c]
      simp only [List.set, List.getD_cons_zero]
      rw [encodeHeader_cons]
      ring
    | q + 1 =>
      have hq' : q < rest.length := by simp at hq; omega
      have ihq := ih q hq'
      rw [psum_cons_succ, psum_cons_succ]
      have eb : q + 1 + (c + psum rest q) = (c + 1) + (q + psum rest q) := by omega
      have ee : q + 1 + (c + psum rest (q + 1)) = (c + 1) + (q + psum rest (q + 1)) := by omega
      rw [eb, ee]
      set b' := q + psum rest q with hb'
      set e' := q + psum rest (q + 1) with he'
      set X := encodeHeader rest with hX
      have hmodeq : encodeHeader (c :: rest) % 2 ^ (c + 1 + b') =
          2 ^ c + 2 ^ (c + 1) * (X % 2 ^ b') := by
        have hsplitX : encodeHeader (c :: rest) =
            (2 ^ c + 2 ^ (c + 1) * (X % 2 ^ b')) + 2 ^ (c + 1 + b') * (X / 2 ^ b') := by
          rw [encodeHeader_cons, ← hX]
          have hdm : X = 2 ^ b' * (X / 2 ^ b') + X % 2 ^ b' := (Nat.div_add_mod X (2 ^ b')).symm
          calc 2 ^ c + 2 ^ (c + 1) * X
              = 2 ^ c + 2 ^ (c + 1) * (2 ^ b' * (X / 2 ^ b') + X % 2 ^ b') := by rw [← hdm]
          _ = (2 ^ c + 2 ^ (c + 1) * (X % 2 ^ b')) + (2 ^ (c + 1) * 2 ^ b') * (X / 2 ^ b') := by
              ring
          _ = (2 ^ c + 2 ^ (c + 1) * (X % 2 ^ b')) + 2 ^ (c + 1 + b') * (X / 2 ^ b') := by
              rw [← Nat.pow_add]
        have hlt : 2 ^ c + 2 ^ (c + 1) * (X % 2 ^ b') < 2 ^ (c + 1 + b') := by
          have h1 : X % 2 ^ b' + 1 ≤ 2 ^ b' := Nat.mod_lt X (Nat.pos_pow_of_pos _ (by norm_num))
          have h2 : (2 : Nat) ^ (c + 1 + b') = 2 ^ (c + 1) * 2 ^ b' := by rw [← Nat.pow_add]
          have h3 : (2 : Nat) ^ c < 2 ^ (c + 1) := Nat.pow_lt_pow_right (by norm_num) (by omega)
          have h4 : 2 ^ (c + 1) * (X % 2 ^ b') + 2 ^ (c + 1) ≤ 2 ^ (c + 1) * 2 ^ b' := by
            calc 2 ^ (c + 1) * (X % 2 ^ b') + 2 ^ (c + 1)
                = 2 ^ (c + 1) * (X % 2 ^ b' + 1) := by ring
            _ ≤ 2 ^ (c + 1) * 2 ^ b' := Nat.mul_le_mul_left _ h1
          omega
        rw [hsplitX, Nat.add_mul_mod_self_left, Nat.mod_eq_of_lt hlt]
      have hshifteq : encodeHeader (c :: rest) >>> (c + 1 + e') = X >>> e' := by
        rw [Nat.shiftRight_add, encodeHeader_shift, hX]
      rw [hmodeq, hshifteq,
        show (2 : Nat) ^ (c + 1 + e' + 1) = 2 ^ (c + 1) * 2 ^ (e' + 1) from by
          rw [show c + 1 + e' + 1 = c + 1 + (e' + 1) from by omega, Nat.pow_add]]
      calc 2 ^ c + 2 ^ (c + 1) * (X % 2 ^ b') + 2 ^ (c + 1) * 2 ^ (e' + 1) * (X >>> e')
          = 2 ^ c + 2 ^ (c + 1) * (X % 2 ^ b' + 2 ^ (e' + 1) * (X >>> e')) := by ring
      _ = 2 ^ c + 2 ^ (c + 1) * encodeHeader (rest.set q (rest.getD q 0 + 1)) := by rw [ihq]
      _ = encodeHeader ((c :: rest).set (q + 1) ((c :: rest).getD (q + 1) 0 + 1)) := by
          simp only [List.set, List.getD_cons_succ]
          rw [encodeHeader_cons]

theorem addBeginH_eq {h q : Nat} (hlt : h < 2 ^ 101) (hpop : popAux 128 h = 50)
    (hq : q < 50) : addBeginH h q = beginH h q := by
  unfold addBeginH beginH
  by_cases hq0 : q = 0
  · simp [hq0]
  · rw [if_neg hq0, if_neg hq0]
    rw [select128_eq (Nat.lt_of_lt_of_le hlt (Nat.pow_le_pow_right (by norm_num) (by norm_num)))
      (nthAux_spec 128 h (q - 1) (by omega)).1]

theorem addEndH_eq {h q : Nat} (hlt : h < 2 ^ 101) (hpop : popAux 128 h = 50)
    (hq : q < 50) : addEndH h q = endH h q := by
  unfold addEndH endH
  rw [select128_eq (Nat.lt_of_lt_of_le hlt (Nat.pow_le_pow_right (by norm_num) (by norm_num)))
    (nthAux_spec 128 h q (by omega)).1]

/-- The header update of `pd_add_50` on an encoded header bumps the
target class size by one. -/
theorem newHeader_encode {l : List Nat} (h50 : l.length = 50) (hsum : l.sum ≤ 51)
    {q : Nat} (hq : q < 50) :
    newHeaderOf (encodeHeader l) q = encodeHeader (l.set q (l.getD q 0 + 1)) := by
  have hlt : encodeHeader l < 2 ^ 101 := encodeHeader_lt_101 h50 hsum
  have hpop : popAux 128 (encodeHeader l) = 50 := by
    rw [popAux_encodeHeader l (by omega)]; exact h50
  unfold newHeaderOf
  rw [addBeginH_eq hlt hpop hq, addEndH_eq hlt hpop hq,
    beginH_encodeHeader h50 hsum hq, endH_encodeHeader h50 hsum hq]
  rw [Nat.shiftLeft_eq, Nat.one_mul, Nat.and_pow_two_sub_one_eq_mod]
  rw [or_shiftLeft_eq_add (Nat.lt_of_lt_of_le (Nat.mod_lt _ (Nat.pos_pow_of_pos _ (by norm_num)))
    (Nat.pow_le_pow_right (by norm_num) (by
      have := psum_mono l (show q ≤ q + 1 from by omega)
      omega)))]
  rw [Nat.add_comm (2 ^ (q + psum l (q + 1) + 1) * (encodeHeader l >>> (q + psum l (q + 1))))
    (encodeHeader l % 2 ^ (q + psum l q))]
  exact encodeHeader_insert_arith l q (by omega)

theorem writeHeader_encodePD (a : Abs) (h' : Nat) :
    writeHeader (encodePD a) h' = headerBytesList h' ++ a.tape := by
  unfold writeHeader encodePD
  have e : (headerBytesList (encodeHeader a.sizes) ++ a.tape).drop 13 = a.tape := by
    rw [show (13 : Nat) = (headerBytesList (encodeHeader a.sizes)).length from
      (headerBytesList_length _).symm]
    exact List.drop_left _ _
  rw [e]
  rfl

theorem scanIdx_eq_tapeScan {a : Abs} (hlen : a.tape.length = 51)
    (hbytes : ∀ x ∈ a.tape, x < 256) (r : Nat) :
    ∀ (c i : Nat), i + c ≤ 51 → scanIdx r (encodePD a) i c = tapeScan r a.tape i c := by
  intro c
  induction c with
  | zero => intro i _; rfl
  | succ c ih =>
    intro i hic
    show (if r ≤ byteAt (encodePD a) (13 + i) then i else scanIdx r (encodePD a) (i + 1) c) =
      (if r ≤ a.tape.getD i 0 then i else tapeScan r a.tape (i + 1) c)
    rw [byteAt_encodePD_tape hlen hbytes (by omega)]
    by_cases hcond : r ≤ a.tape.getD i 0
    · rw [if_pos hcond, if_pos hcond]
    · rw [if_neg hcond, if_neg hcond, ih (i + 1) (by omega)]

theorem tapeScan_ge (r : Nat) (t : List Nat) : ∀ (c i : Nat), i ≤ tapeScan r t i c := by
  intro c
  induction c with
  | zero => intro i; exact Nat.le_refl i
  | succ c ih =>
    intro i
    show i ≤ (if r ≤ t.getD i 0 then i else tapeScan r t (i + 1) c)
    split
    · exact Nat.le_refl i
    · exact Nat.le_trans (by omega) (ih (i + 1))

theorem tapeScan_le (r : Nat) (t : List Nat) : ∀ (c i : Nat), tapeScan r t i c ≤ i + c := by
  intro c
  induction c with
  | zero => intro i; exact Nat.le_refl i
  | succ c ih =>
    intro i
    show (if r ≤ t.getD i 0 then i else tapeScan r t (i + 1) c) ≤ i + (c + 1)
    split
    · omega
    · have := ih (i + 1)
      omega

theorem tapeScan_before (r : Nat) (t : List Nat) : ∀ (c i j : Nat), i ≤ j →
    j < tapeScan r t i c → t.getD j 0 < r := by
  intro c
  induction c with
  | zero =>
    intro i j hij hlt
    exact absurd hlt (by show ¬ j < i; omega)
  | succ c ih =>
    intro i j hij hlt
    revert hlt
    show j < (if r ≤ t.getD i 0 then i else tapeScan r t (i + 1) c) → _
    split
    · intro h; omega
    · intro h
      by_cases hji : j = i
      · subst hji; omega
      · exact ih (i + 1) j (by omega) h

theorem tapeScan_at (r : Nat) (t : List Nat) : ∀ (c i : Nat), tapeScan r t i c < i + c →
    r ≤ t.getD (tapeScan r t i c) 0 := by
  intro c
  induction c with
  | zero =>
    intro i h
    rw [show tapeScan r t i 0 = i from rfl] at h
    omega
  | succ c ih =>
    intro i
    show (if r ≤ t.getD i 0 then i else tapeScan r t (i + 1) c) < i + (c + 1) →
      r ≤ t.getD (if r ≤ t.getD i 0 then i else tapeScan r t (i + 1) c) 0
    split
    · intro _; assumption
    · intro h
      exact ih (i + 1) (by omega)

/-- `pd_add_50` on an encoded PD: fails untouched when full, otherwise
returns the encoding of the abstract insertion. -/
theorem pd_add_50_encode {a : Abs} (hWF : absWF a) {q r : Nat} (hq : q < 50) (hr : r < 256) :
    pd_add_50 q r (encodePD a) =
      if a.sizes.sum = 51 then (false, encodePD a)
      else (true, encodePD (absAdd q r a)) := by
  obtain ⟨h50, hsum, hlen, hbytes, hsort⟩ := hWF
  have hfill : pdFillRaw (encodePD a) = a.sizes.sum := pdFillRaw_encodePD h50 hsum
  show (if pdFillRaw (encodePD a) = 51 then ((false : Bool), encodePD a)
    else (true,
      (writeHeader (encodePD a) (newHeaderOf (pdHeader13 (encodePD a)) q)).take
          (13 + addIndex q r (encodePD a)) ++ [r % 256] ++
        ((writeHeader (encodePD a) (newHeaderOf (pdHeader13 (encodePD a)) q)).drop
          (13 + addIndex q r (encodePD a))).take
          (64 - (13 + addIndex q r (encodePD a) + 1)))) = _
  rw [hfill]
  by_cases hfull : a.sizes.sum = 51
  · rw [if_pos hfull, if_pos hfull]
  · rw [if_neg hfull, if_neg hfull]
    have hsum50 : a.sizes.sum ≤ 50 := by omega
    have hlt : encodeHeader a.sizes < 2 ^ 101 := encodeHeader_lt_101 h50 hsum
    have hpop : popAux 128 (encodeHeader a.sizes) = 50 := by
      rw [popAux_encodeHeader a.sizes (by omega)]; exact h50
    have hH13 : pdHeader13 (encodePD a) = encodeHeader a.sizes := pdHeader13_encodePD h50 hsum
    have hwH : writeHeader (encodePD a) (newHeaderOf (pdHeader13 (encodePD a)) q) =
        encodePD ⟨a.sizes.set q (a.sizes.getD q 0 + 1), a.tape⟩ := by
      rw [hH13, newHeader_encode h50 hsum hq, writeHeader_encodePD]
      rfl
    have hpsle : psum a.sizes q ≤ psum a.sizes (q + 1) := psum_mono a.sizes (by omega)
    have hps1 : psum a.sizes (q + 1) ≤ a.sizes.sum := psum_le_sum a.sizes (q + 1)
    have hps0 : psum a.sizes q ≤ a.sizes.sum := psum_le_sum a.sizes q
    have hb64 : sub64 (addBeginH (pdHeader13 (encodePD a)) q) q = psum a.sizes q := by
      rw [hH13, addBeginH_eq hlt hpop hq, beginH_encodeHeader h50 hsum hq,
        sub64_eq (by omega) (by omega)]
      omega
    have he64 : sub64 (addEndH (pdHeader13 (encodePD a)) q) q = psum a.sizes (q + 1) := by
      rw [hH13, addEndH_eq hlt hpop hq, endH_encodeHeader h50 hsum hq,
        sub64_eq (by omega) (by omega)]
      omega
    have hscan : addIndex q r (encodePD a) =
        tapeScan r a.tape (psum a.sizes q) (psum a.sizes (q + 1) - psum a.sizes q) := by
      show scanIdx (r % 256)
          (writeHeader (encodePD a) (newHeaderOf (pdHeader13 (encodePD a)) q))
          (sub64 (addBeginH (pdHeader13 (encodePD a)) q) q)
          (sub64 (addEndH (pdHeader13 (encodePD a)) q) q -
            sub64 (addBeginH (pdHeader13 (encodePD a)) q) q) = _
      rw [hwH, hb64, he64, Nat.mod_eq_of_lt hr]
      exact scanIdx_eq_tapeScan (a := ⟨a.sizes.set q (a.sizes.getD q 0 + 1), a.tape⟩)
        hlen hbytes r _ _ (by omega)
    have hi0l : psum a.sizes q ≤
        tapeScan r a.tape (psum a.sizes q) (psum a.sizes (q + 1) - psum a.sizes q) :=
      tapeScan_ge r a.tape _ _
    have hi0u : tapeScan r a.tape (psum a.sizes q) (psum a.sizes (q + 1) - psum a.sizes q) ≤
        psum a.sizes (q + 1) := by
      have := tapeScan_le r a.tape (psum a.sizes (q + 1) - psum a.sizes q) (psum a.sizes q)
      omega
    refine congrArg (fun x => ((true : Bool), x)) ?_
    rw [hwH, hscan, Nat.mod_eq_of_lt hr]
    show (headerBytesList (encodeHeader (a.sizes.set q (a.sizes.getD q 0 + 1))) ++
        a.tape).take
          (13 + tapeScan r a.tape (psum a.sizes q) (psum a.sizes (q + 1) - psum a.sizes q)) ++
        [r] ++
      ((headerBytesList (encodeHeader (a.sizes.set q (a.sizes.getD q 0 + 1))) ++
        a.tape).drop
          (13 + tapeScan r a.tape (psum a.sizes q) (psum a.sizes (q + 1) - psum a.sizes q))).take
          (64 - (13 + tapeScan r a.tape (psum a.sizes q)
            (psum a.sizes (q + 1) - psum a.sizes q) + 1)) = _
    set i0 := tapeScan r a.tape (psum a.sizes q) (psum a.sizes (q + 1) - psum a.sizes q) with hi0
    have e13 : 13 + i0 =
        (headerBytesList (encodeHeader (a.sizes.set q (a.sizes.getD q 0 + 1)))).length + i0 := by
      rw [headerBytesList_length]
    rw [e13, List.take_append, List.drop_append,
      show 64 - ((headerBytesList (encodeHeader (a.sizes.set q (a.sizes.getD q 0 + 1)))).length +
        i0 + 1) = 50 - i0 from by rw [headerBytesList_length]; omega]
    show _ = headerBytesList (encodeHeader (a.sizes.set q (a.sizes.getD q 0 + 1))) ++
      (a.tape.take i0 ++ [r] ++ (a.tape.drop i0).take (50 - i0))
    simp only [List.append_assoc]

/-! ### The inserted tape and preservation of well-formedness -/

theorem getD_take {t : List Nat} {n j : Nat} (h : j < n) : (t.take n).getD j 0 = t.getD j 0 := by
  rw [List.getD_eq_getElem?_getD, List.getD_eq_getElem?_getD, List.getElem?_take, if_pos h]

theorem getD_drop (t : List Nat) (n j : Nat) : (t.drop n).getD j 0 = t.getD (n + j) 0 := by
  rw [List.getD_eq_getElem?_getD, List.getD_eq_getElem?_getD, List.getElem?_drop]

/-- Reading the tape after inserting `r` at index `i0` (dropping the
last byte). -/
theorem getD_insert {t : List Nat} {i0 : Nat} (r : Nat) (hi : i0 ≤ 50)
    (hlen : t.length = 51) (j : Nat) :
    (t.take i0 ++ [r] ++ (t.drop i0).take (50 - i0)).getD j 0 =
      if j < i0 then t.getD j 0
      else if j = i0 then r
      else if j ≤ 50 then t.getD (j - 1) 0 else 0 := by
  have hlt : (t.take i0).length = i0 := by
    rw [List.length_take]
    omega
  rw [List.append_assoc]
  by_cases h1 : j < i0
  · rw [List.getD_append _ _ _ _ (by omega), if_pos h1, getD_take h1]
  · rw [List.getD_append_right _ _ _ _ (by omega), hlt, if_neg h1]
    by_cases h2 : j = i0
    · rw [if_pos h2, h2, Nat.sub_self]
      rfl
    · rw [if_neg h2]
      have hji : 1 ≤ j - i0 := by omega
      have e : j - i0 = (j - i0 - 1) + 1 := by omega
      rw [e]
      show ((t.drop i0).take (50 - i0)).getD (j - i0 - 1) 0 = _
      by_cases h3 : j ≤ 50
      · rw [if_pos h3, getD_take (by omega), getD_drop,
          show i0 + (j - i0 - 1) = j - 1 from by omega]
      · rw [if_neg h3]
        rw [List.getD_eq_default]
        rw [List.length_take, List.length_drop, hlen]
        omega

/-- `absAdd` preserves well-formedness when the PD is not full. -/
theorem absAdd_WF {a : Abs} (hWF : absWF a) {q r : Nat} (hq : q < 50) (hr : r < 256)
    (hs50 : a.sizes.sum ≤ 50) : absWF (absAdd q r a) := by
  obtain ⟨h50, hsum, hlen, hbytes, hsort⟩ := hWF
  have hpsle : psum a.sizes q ≤ psum a.sizes (q + 1) := psum_mono a.sizes (by omega)
  have hps1 : psum a.sizes (q + 1) ≤ a.sizes.sum := psum_le_sum a.sizes (q + 1)
  set t := a.tape with ht
  set i0 := tapeScan r t (psum a.sizes q) (psum a.sizes (q + 1) - psum a.sizes q) with hi0
  have hi0l : psum a.sizes q ≤ i0 := tapeScan_ge r t _ _
  have hi0u : i0 ≤ psum a.sizes (q + 1) := by
    have := tapeScan_le r t (psum a.sizes (q + 1) - psum a.sizes q) (psum a.sizes q)
    omega
  have hi050 : i0 ≤ 50 := by omega
  have htape : (absAdd q r a).tape = t.take i0 ++ [r] ++ (t.drop i0).take (50 - i0) := rfl
  have hsizes : (absAdd q r a).sizes = a.sizes.set q (a.sizes.getD q 0 + 1) := rfl
  have hpsum' : ∀ k, psum (absAdd q r a).sizes k =
      psum a.sizes k + (if q < k then 1 else 0) := by
    intro k
    rw [hsizes]
    exact psum_set_succ a.sizes q k (by omega)
  refine ⟨?_, ?_, ?_, ?_, ?_⟩
  · rw [hsizes, List.length_set]
    exact h50
  · rw [hsizes, sum_set_succ a.sizes q (by omega)]
    omega
  · rw [htape]
    simp only [List.length_append, List.length_take, List.length_drop, hlen,
      List.length_cons, List.length_nil]
    omega
  · rw [htape]
    intro b hb
    rw [List.append_assoc] at hb
    rcases List.mem_append.mp hb with h1 | h2
    · exact hbytes b (List.mem_of_mem_take h1)
    · rcases List.mem_append.mp h2 with h3 | h4
      · rw [List.mem_singleton] at h3
        omega
      · exact hbytes b (List.mem_of_mem_drop (List.mem_of_mem_take h4))
  · intro q' i hq' hge hlt
    rw [hpsum'] at hge hlt
    rw [htape, getD_insert r hi050 hlen i, getD_insert r hi050 hlen (i + 1)]
    rcases Nat.lt_trichotomy q' q with hc | hc | hc
    · -- class strictly before q: untouched indices below i0
      rw [if_neg (show ¬ q < q' from by omega)] at hge
      rw [if_neg (show ¬ q < q' + 1 from by omega)] at hlt
      have hii : i + 1 < i0 := by
        have h1 : psum a.sizes (q' + 1) ≤ psum a.sizes q := psum_mono a.sizes (by omega)
        omega
      rw [if_pos (show i < i0 from by omega), if_pos hii]
      exact hsort q' i (by omega) (by omega) (by omega)
    · -- the target class
      rw [hc] at hge hlt
      rw [if_neg (show ¬ q < q from by omega)] at hge
      rw [if_pos (show q < q + 1 from by omega)] at hlt
      rcases Nat.lt_trichotomy (i + 1) i0 with hd | hd | hd
      · rw [if_pos (show i < i0 from by omega), if_pos hd]
        exact hsort q i (by omega) (by omega) (by omega)
      · -- i + 1 = i0 : old byte below the insertion point vs the new byte
        rw [if_pos (show i < i0 from by omega), if_neg (show ¬ i + 1 < i0 from by omega),
          if_pos (show i + 1 = i0 from by omega)]
        have := tapeScan_before r t (psum a.sizes (q + 1) - psum a.sizes q)
          (psum a.sizes q) i (by omega) (by omega)
        omega
      · by_cases he : i = i0
        · -- the new byte vs the old byte at the insertion point
          rw [if_neg (show ¬ i < i0 from by omega), if_pos he,
            if_neg (show ¬ i + 1 < i0 from by omega),
            if_neg (show ¬ i + 1 = i0 from by omega),
            if_pos (show i + 1 ≤ 50 from by omega)]
          have := tapeScan_at r t (psum a.sizes (q + 1) - psum a.sizes q)
            (psum a.sizes q) (by omega)
          rw [show i + 1 - 1 = i0 from by omega]
          rw [← hi0] at this
          omega
        · -- both above the insertion point: shifted old bytes
          rw [if_neg (show ¬ i < i0 from by omega), if_neg he,
            if_pos (show i ≤ 50 from by omega),
            if_neg (show ¬ i + 1 < i0 from by omega),
            if_neg (show ¬ i + 1 = i0 from by omega),
            if_pos (show i + 1 ≤ 50 from by omega)]
          rw [show i + 1 - 1 = i from by omega]
          have hs := hsort q (i - 1) (by omega) (by omega) (by omega)
          rw [show i - 1 + 1 = i from by omega] at hs
          exact hs
    · -- class strictly after q: shifted old bytes
      rw [if_pos (show q < q' from by omega)] at hge
      rw [if_pos (show q < q' + 1 from by omega)] at hlt
      have hgei0 : i0 < i := by
        have h1 : psum a.sizes (q + 1) ≤ psum a.sizes q' := psum_mono a.sizes (by omega)
        omega
      have h51 : i + 1 ≤ 50 := by
        have h2 : psum a.sizes (q' + 1) ≤ a.sizes.sum := psum_le_sum a.sizes (q' + 1)
        omega
      rw [if_neg (show ¬ i < i0 from by omega), if_neg (show ¬ i = i0 from by omega),
        if_pos (show i ≤ 50 from by omega),
        if_neg (show ¬ i + 1 < i0 from by omega),
        if_neg (show ¬ i + 1 = i0 from by omega), if_pos h51]
      rw [show i + 1 - 1 = i from by omega]
      have hs := hsort q' (i - 1) (by omega) (by omega) (by omega)
      rw [show i - 1 + 1 = i from by omega] at hs
      exact hs

/-- After a non-full `absAdd`, the inserted remainder is present in
class `q`. -/
theorem absAdd_mem_new {a : Abs} (hWF : absWF a) {q r : Nat} (hq : q < 50)
    (hs50 : a.sizes.sum ≤ 50) :
    ∃ i, psum (absAdd q r a).sizes q ≤ i ∧ i < psum (absAdd q r a).sizes (q + 1) ∧
      (absAdd q r a).tape.getD i 0 = r := by
  obtain ⟨h50, hsum, hlen, hbytes, hsort⟩ := hWF
  have hpsle : psum a.sizes q ≤ psum a.sizes (q + 1) := psum_mono a.sizes (by omega)
  have hps1 : psum a.sizes (q + 1) ≤ a.sizes.sum := psum_le_sum a.sizes (q + 1)
  set t := a.tape with ht
  set i0 := tapeScan r t (psum a.sizes q) (psum a.sizes (q + 1) - psum a.sizes q) with hi0
  have hi0l : psum a.sizes q ≤ i0 := tapeScan_ge r t _ _
  have hi0u : i0 ≤ psum a.sizes (q + 1) := by
    have := tapeScan_le r t (psum a.sizes (q + 1) - psum a.sizes q) (psum a.sizes q)
    omega
  have hpsum' : ∀ k, psum (absAdd q r a).sizes k =
      psum a.sizes k + (if q < k then 1 else 0) :=
    fun k => psum_set_succ a.sizes q k (by omega)
  refine ⟨i0, ?_, ?_, ?_⟩
  · rw [hpsum', if_neg (show ¬ q < q from by omega)]
    omega
  · rw [hpsum', if_pos (show q < q + 1 from by omega)]
    omega
  · show (t.take i0 ++ [r] ++ (t.drop i0).take (50 - i0)).getD i0 0 = r
    rw [getD_insert r (by omega) hlen i0, if_neg (show ¬ i0 < i0 from by omega), if_pos rfl]

/-- A non-full `absAdd` preserves every remainder already present in any
class. -/
theorem absAdd_mem_preserved {a : Abs} (hWF : absWF a) {q r : Nat} (hq : q < 50)
    (hs50 : a.sizes.sum ≤ 50) {q2 i r2 : Nat}
    (hge : psum a.sizes q2 ≤ i) (hlt : i < psum a.sizes (q2 + 1))
    (hval : a.tape.getD i 0 = r2) :
    ∃ j, psum (absAdd q r a).sizes q2 ≤ j ∧ j < psum (absAdd q r a).sizes (q2 + 1) ∧
      (absAdd q r a).tape.getD j 0 = r2 := by
  obtain ⟨h50, hsum, hlen, hbytes, hsort⟩ := hWF
  have hpsle : psum a.sizes q ≤ psum a.sizes (q + 1) := psum_mono a.sizes (by omega)
  have hps1 : psum a.sizes (q + 1) ≤ a.sizes.sum := psum_le_sum a.sizes (q + 1)
  have hps2 : psum a.sizes (q2 + 1) ≤ a.sizes.sum := psum_le_sum a.sizes (q2 + 1)
  set t := a.tape with ht
  set i0 := tapeScan r t (psum a.sizes q) (psum a.sizes (q + 1) - psum a.sizes q) with hi0
  have hi0l : psum a.sizes q ≤ i0 := tapeScan_ge r t _ _
  have hi0u : i0 ≤ psum a.sizes (q + 1) := by
    have := tapeScan_le r t (psum a.sizes (q + 1) - psum a.sizes q) (psum a.sizes q)
    omega
  have hpsum' : ∀ k, psum (absAdd q r a).sizes k =
      psum a.sizes k + (if q < k then 1 else 0) :=
    fun k => psum_set_succ a.sizes q k (by omega)
  have htape : (absAdd q r a).tape = t.take i0 ++ [r] ++ (t.drop i0).take (50 - i0) := rfl
  by_cases hcase : i < i0
  · refine ⟨i, ?_, ?_, ?_⟩
    · rw [hpsum']
      split
      · -- q < q2 : then psum (q+1) ≤ psum q2 ≤ i < i0 ≤ psum (q+1), contradiction-free bound
        have h1 : psum a.sizes (q + 1) ≤ psum a.sizes q2 := psum_mono a.sizes (by omega)
        omega
      · omega
    · rw [hpsum']
      split <;> omega
    · rw [htape, getD_insert r (by omega) hlen i, if_pos hcase]
      exact hval
  · refine ⟨i + 1, ?_, ?_, ?_⟩
    · rw [hpsum']
      split <;> omega
    · rw [hpsum']
      split
      · omega
      · -- ¬ q < q2 + 1 : q ≥ q2 + 1, so psum (q2+1) ≤ psum q ≤ i0 ≤ i, contradicting hlt
        rename_i hq2q
        have h1 : psum a.sizes (q2 + 1) ≤ psum a.sizes q := psum_mono a.sizes (by omega)
        omega
    · rw [htape, getD_insert r (by omega) hlen (i + 1),
        if_neg (show ¬ i + 1 < i0 from by omega),
        if_neg (show ¬ i + 1 = i0 from by omega),
        if_pos (show i + 1 ≤ 50 from by omega),
        show i + 1 - 1 = i from by omega]
      exact hval

/-! ### Reachable PDs are encodings of well-formed abstract states -/

/-- The abstract empty PD: all 50 class sizes zero, tape all zero. -/
def absEmpty : Abs := ⟨List.replicate 50 0, List.replicate 51 0⟩

theorem psum_replicate_zero (n k : Nat) : psum (List.replicate n 0) k = 0 := by
  unfold psum
  rw [List.take_replicate]
  simp

theorem absWF_empty : absWF absEmpty := by
  refine ⟨by simp [absEmpty], by simp [absEmpty], by simp [absEmpty], ?_, ?_⟩
  · intro b hb
    rw [absEmpty, List.mem_replicate] at hb
    omega
  · intro q i _ _ hlt
    rw [show absEmpty.sizes = List.replicate 50 0 from rfl, psum_replicate_zero] at hlt
    omega

set_option maxRecDepth 100000 in
theorem emptyPD_encode : emptyPD = encodePD absEmpty := by decide

theorem reachable_encode {pd : List Nat} (h : Reachable pd) :
    ∃ a : Abs, absWF a ∧ pd = encodePD a := by
  induction h with
  | base => exact ⟨absEmpty, absWF_empty, emptyPD_encode⟩
  | @step pd q r hre hq hr hok ih =>
    obtain ⟨a, hWF, rfl⟩ := ih
    rw [pd_add_50_encode hWF hq hr] at hok ⊢
    by_cases hfull : a.sizes.sum = 51
    · rw [if_pos hfull] at hok
      exact absurd hok (by simp)
    · rw [if_neg hfull] at *
      exact ⟨absAdd q r a, absAdd_WF ⟨(hWF.1), hWF.2.1, hWF.2.2.1, hWF.2.2.2.1, hWF.2.2.2.2⟩
        hq hr (by have := hWF.2.1; omega), rfl⟩

/-! ### The concrete PD invariant and decoding -/

/-- The raw first 128 bits of the block (before masking). -/
def rawH (pd : List Nat) : Nat := readLE pd 16

/-- Fill of a PD: the number of zeros at or below the 50th set bit of
the masked header (`s_49 - 49`). -/
def pdFill (pd : List Nat) : Nat := nthAux 128 (headerOf pd) 49 - 49

/-- Per-quotient-class sortedness of the remainder tape, with the slot
range of each class read off the masked header. -/
def pdSorted (pd : List Nat) : Prop :=
  ∀ q i, q < 50 → beginH (headerOf pd) q - q ≤ i →
    i + 1 < endH (headerOf pd) q - q → byteAt pd (13 + i) ≤ byteAt pd (13 + i + 1)

/-- The PD invariant: 64 bytes, 50 set bits in the masked header, the
13 header bytes fit in 101 bits, sorted classes, fill at most 51. -/
def PDInv (pd : List Nat) : Prop :=
  pd.length = 64 ∧ (∀ b ∈ pd, b < 256) ∧ popAux 128 (headerOf pd) = 50 ∧
    readLE pd 13 < 2 ^ 101 ∧ pdSorted pd ∧ pdFill pd ≤ 51

/-- The invariant exactly as the specification states it, with
`H >> 101 == 0` read on the raw first 128 bits. -/
def PDInvOrig (pd : List Nat) : Prop :=
  pd.length = 64 ∧ (∀ b ∈ pd, b < 256) ∧ popAux 128 (headerOf pd) = 50 ∧
    rawH pd >>> 101 = 0 ∧ pdSorted pd ∧ pdFill pd ≤ 51

/-- Class sizes read off a header by repeated trailing-zero counts. -/
def decodeSizes : Nat → Nat → List Nat
  | 0, _ => []
  | n + 1, h => tzAux 128 h :: decodeSizes n (h >>> (tzAux 128 h + 1))

theorem eq_zero_of_popAux {w h : Nat} (hlt : h < 2 ^ w) (hpop : popAux w h = 0) : h = 0 := by
  apply Nat.eq_of_testBit_eq
  intro i
  rw [Nat.zero_testBit]
  by_cases hi : i < w
  · exact testBit_false_of_popAux_eq (a := 0) (b := w) (by simp [popAux, hpop]) (by omega) hi
  · exact Nat.testBit_lt_two_pow
      (Nat.lt_of_lt_of_le hlt (Nat.pow_le_pow_right (by norm_num) (by omega)))

theorem decode_encode : ∀ (n w h : Nat), h < 2 ^ w → popAux w h = n → w ≤ 128 →
    encodeHeader (decodeSizes n h) = h ∧ (decodeSizes n h).length = n ∧
      n + (decodeSizes n h).sum ≤ w := by
  intro n
  induction n with
  | zero =>
    intro w h hlt hpop _
    rw [eq_zero_of_popAux hlt hpop]
    exact ⟨rfl, rfl, by simp [decodeSizes]⟩
  | succ n ih =>
    intro w h hlt hpop hw
    have hpop128 : popAux 128 h = n + 1 := by
      rw [popAux_eq_of_lt hlt hw, hpop]
    have hc := (nthAux_spec 128 h 0 (by omega)).1
    set c := nthAux 128 h 0 with hcdef
    have hcw : c < w := isNth_lt_width hc hlt
    have hmodc : h % 2 ^ c = 0 := by
      apply mod_two_pow_eq_zero_of_bits
      intro i hi
      exact testBit_false_of_popAux_eq (a := 0) (b := c)
        (by rw [show popAux 0 h = 0 from rfl, hc.2]) (by omega) hi
    have htz : tzAux 128 h = c := tzAux_spec 128 h c (by omega) hmodc hc.1
    have hbitc : h / 2 ^ c % 2 = 1 := (testBit_eq_true_iff h c).mp hc.1
    have hmodc1 : h % 2 ^ (c + 1) = 2 ^ c := by
      have e1 : (2 : Nat) ^ (c + 1) = 2 ^ c * 2 := by rw [Nat.pow_succ]
      rw [e1, Nat.mod_mul, hbitc]
      omega
    have hdecomp : h = 2 ^ (c + 1) * (h >>> (c + 1)) + 2 ^ c := by
      rw [Nat.shiftRight_eq_div_pow]
      have := Nat.div_add_mod h (2 ^ (c + 1))
      omega
    have hshlt : h >>> (c + 1) < 2 ^ (w - c - 1) := by
      rw [Nat.shiftRight_eq_div_pow]
      apply Nat.div_lt_of_lt_mul
      calc h < 2 ^ w := hlt
      _ = 2 ^ (c + 1) * 2 ^ (w - c - 1) := by
        rw [← Nat.pow_add, show c + 1 + (w - c - 1) = w from by omega]
    have hpopsh : popAux (w - c - 1) (h >>> (c + 1)) = n := by
      have hsplit := popAux_add (c + 1) (w - c - 1) h
      rw [show c + 1 + (w - c - 1) = w from by omega] at hsplit
      have hc1 : popAux (c + 1) h = 1 := by
        rw [popAux_succ, hc.2, hbitc]
      omega
    obtain ⟨he, hlen, hsum⟩ := ih (w - c - 1) (h >>> (c + 1)) hshlt hpopsh (by omega)
    have hunfold : decodeSizes (n + 1) h = c :: decodeSizes n (h >>> (c + 1)) := by
      show tzAux 128 h :: decodeSizes n (h >>> (tzAux 128 h + 1)) = _
      rw [htz]
    rw [hunfold]
    refine ⟨?_, ?_, ?_⟩
    · rw [encodeHeader_cons, he]
      omega
    · rw [List.length_cons, hlen]
    · rw [List.sum_cons]
      omega

theorem readLE_lt (pd : List Nat) : ∀ n, readLE pd n < 2 ^ (8 * n) := by
  intro n
  induction n with
  | zero => simp [readLE]
  | succ n ih =>
    show readLE pd n + byteAt pd n * 2 ^ (8 * n) < 2 ^ (8 * (n + 1))
    have hb : byteAt pd n < 256 := Nat.mod_lt _ (by norm_num)
    have e : (2 : Nat) ^ (8 * (n + 1)) = 2 ^ (8 * n) * 256 := by
      rw [show 8 * (n + 1) = 8 * n + 8 from by omega, Nat.pow_add,
        show (2 : Nat) ^ 8 = 256 from by norm_num]
    rw [e]
    nlinarith [ih, Nat.pos_pow_of_pos (8 * n) (show 0 < 2 from by norm_num)]

theorem readLE_split (pd : List Nat) : ∀ (n j : Nat), j ≤ n →
    ∃ M, readLE pd n = readLE pd j + M * 2 ^ (8 * j) := by
  intro n
  induction n with
  | zero =>
    intro j hj
    exact ⟨0, by rw [show j = 0 from by omega]; simp⟩
  | succ n ih =>
    intro j hj
    by_cases hjn : j = n + 1
    · exact ⟨0, by rw [hjn]; simp⟩
    · obtain ⟨M, hM⟩ := ih j (by omega)
      refine ⟨M + byteAt pd n * 2 ^ (8 * (n - j)), ?_⟩
      show readLE pd n + byteAt pd n * 2 ^ (8 * n) = _
      rw [hM]
      have e : (2 : Nat) ^ (8 * n) = 2 ^ (8 * (n - j)) * 2 ^ (8 * j) := by
        rw [← Nat.pow_add, show 8 * (n - j) + 8 * j = 8 * n from by omega]
      rw [e]
      ring

theorem readLE_byte (pd : List Nat) {n j : Nat} (h : j < n) :
    (readLE pd n >>> (8 * j)) % 256 = byteAt pd j := by
  obtain ⟨M, hM⟩ := readLE_split pd n (j + 1) (by omega)
  rw [hM]
  show ((readLE pd j + byteAt pd j * 2 ^ (8 * j) + M * 2 ^ (8 * (j + 1))) >>> (8 * j)) % 256 = _
  rw [Nat.shiftRight_eq_div_pow]
  have e : readLE pd j + byteAt pd j * 2 ^ (8 * j) + M * 2 ^ (8 * (j + 1)) =
      readLE pd j + 2 ^ (8 * j) * (byteAt pd j + 256 * M) := by
    rw [show 8 * (j + 1) = 8 * j + 8 from by omega, Nat.pow_add,
      show (2 : Nat) ^ 8 = 256 from by norm_num]
    ring
  rw [e, Nat.add_mul_div_left _ _ (Nat.pos_pow_of_pos _ (by norm_num)),
    Nat.div_eq_of_lt (readLE_lt pd j), Nat.zero_add, Nat.add_mul_mod_self_left]
  exact Nat.mod_eq_of_lt (Nat.mod_lt _ (by norm_num))

theorem take13_headerBytes {pd : List Nat} (hlen : pd.length = 64)
    (hbytes : ∀ b ∈ pd, b < 256) : pd.take 13 = headerBytesList (readLE pd 13) := by
  apply List.ext_getElem
  · rw [List.length_take, hlen, headerBytesList_length]
    omega
  · intro i h1 h2
    rw [headerBytesList_length] at h2
    rw [List.getElem_take]
    show pd[i] = (headerBytesList (readLE pd 13))[i]
    have e1 : (headerBytesList (readLE pd 13))[i] = (readLE pd 13 >>> (8 * i)) % 256 := by
      unfold headerBytesList
      rw [List.getElem_map, List.getElem_range]
    rw [e1, readLE_byte pd h2]
    unfold byteAt
    rw [List.getD_eq_getElem _ _ (by omega)]
    exact (Nat.mod_eq_of_lt (hbytes _ (List.getElem_mem _))).symm

theorem headerOf_eq_readLE13 {pd : List Nat} (h13 : readLE pd 13 < 2 ^ 101) :
    headerOf pd = readLE pd 13 := by
  unfold headerOf
  rw [Nat.and_pow_two_sub_one_eq_mod]
  obtain ⟨M, hM⟩ := readLE_split pd 16 13 (by omega)
  rw [hM, show M * 2 ^ (8 * 13) = M * 8 * 2 ^ 101 from by
      rw [show 8 * 13 = 101 + 3 from by norm_num, Nat.pow_add]
      ring,
    Nat.add_mul_mod_self_right, Nat.mod_eq_of_lt h13]

theorem pdFill_encodePD {a : Abs} (h50 : a.sizes.length = 50) (hsum : a.sizes.sum ≤ 51) :
    pdFill (encodePD a) = a.sizes.sum := by
  unfold pdFill
  rw [headerOf_encodePD h50 hsum]
  have he : nthAux 128 (encodeHeader a.sizes) 49 = endH (encodeHeader a.sizes) 49 := rfl
  rw [he, endH_encodeHeader h50 hsum (by omega), psum_full a.sizes (by omega)]
  omega

/-- Any encoded well-formed abstract PD satisfies the concrete invariant. -/
theorem encode_PDInv {a : Abs} (hWF : absWF a) : PDInv (encodePD a) := by
  obtain ⟨h50, hsum, hlen, hbytes, hsort⟩ := hWF
  have hH := headerOf_encodePD h50 hsum
  refine ⟨?_, ?_, ?_, ?_, ?_, ?_⟩
  · unfold encodePD
    rw [List.length_append, headerBytesList_length, hlen]
  · intro b hb
    unfold encodePD at hb
    rcases List.mem_append.mp hb with h1 | h2
    · unfold headerBytesList at h1
      obtain ⟨j, _, hj⟩ := List.mem_map.mp h1
      rw [← hj]
      exact Nat.mod_lt _ (by norm_num)
    · exact hbytes b h2
  · exact popAux_headerOf_encodePD h50 hsum
  · have := pdHeader13_encodePD h50 hsum
    unfold pdHeader13 at this
    have hlt : encodeHeader a.sizes < 2 ^ 101 := encodeHeader_lt_101 h50 hsum
    have e : readLE (encodePD a) 13 = encodeHeader a.sizes := by
      unfold encodePD
      rw [readLE_headerBytes _ _ 13 (Nat.le_refl _)]
      exact Nat.mod_eq_of_lt
        (Nat.lt_of_lt_of_le hlt (Nat.pow_le_pow_right (by norm_num) (by norm_num)))
    rw [e]
    exact hlt
  · intro q i hq hge hlt
    rw [hH] at hge hlt
    rw [beginH_encodeHeader h50 hsum hq,
      show q + psum a.sizes q - q = psum a.sizes q from by omega] at hge
    rw [endH_encodeHeader h50 hsum hq,
      show q + psum a.sizes (q + 1) - q = psum a.sizes (q + 1) from by omega] at hlt
    have hiub : i + 1 < 51 := by
      have := psum_le_sum a.sizes (q + 1)
      omega
    rw [byteAt_encodePD_tape hlen hbytes (by omega),
      show 13 + i + 1 = 13 + (i + 1) from by omega,
      byteAt_encodePD_tape hlen hbytes (by omega)]
    exact hsort q i hq hge hlt
  · rw [pdFill_encodePD h50 hsum]
    exact hsum

/-- Any PD satisfying the concrete invariant is the encoding of a
well-formed abstract PD. -/
theorem PDInv_encode {pd : List Nat} (hinv : PDInv pd) :
    ∃ a : Abs, absWF a ∧ pd = encodePD a := by
  obtain ⟨hlen, hbytes, hpop, h13, hsort, hfill⟩ := hinv
  have hH : headerOf pd = readLE pd 13 := headerOf_eq_readLE13 h13
  have hpop101 : popAux 101 (headerOf pd) = 50 := by
    rw [← popAux_eq_of_lt (headerOf_lt pd) (show 101 ≤ 128 from by norm_num)]
    exact hpop
  obtain ⟨hdec, hdlen, hdsum⟩ :=
    decode_encode 50 101 (headerOf pd) (headerOf_lt pd) hpop101 (by norm_num)
  set sizes := decodeSizes 50 (headerOf pd) with hsz
  refine ⟨⟨sizes, pd.drop 13⟩, ⟨?_, ?_, ?_, ?_, ?_⟩, ?_⟩
  · exact hdlen
  · show sizes.sum ≤ 51
    omega
  · show (pd.drop 13).length = 51
    rw [List.length_drop, hlen]
  · intro b hb
    exact hbytes b (List.mem_of_mem_drop hb)
  · show ∀ q i, q < 50 → psum sizes q ≤ i → i + 1 < psum sizes (q + 1) →
      (pd.drop 13).getD i 0 ≤ (pd.drop 13).getD (i + 1) 0
    intro q i hq hge hlt
    have hb := beginH_encodeHeader (l := sizes) hdlen (by omega) hq
    have he := endH_encodeHeader (l := sizes) hdlen (by omega) hq
    rw [hdec] at hb he
    have hiub : i + 1 < 51 := by
      have := psum_le_sum sizes (q + 1)
      omega
    have hby := hsort q i hq (by omega) (by omega)
    have e1 : byteAt pd (13 + i) = (pd.drop 13).getD i 0 := by
      unfold byteAt
      rw [getD_drop pd 13 i, Nat.mod_eq_of_lt]
      rw [List.getD_eq_getElem _ _ (by omega)]
      exact hbytes _ (List.getElem_mem _)
    have e2 : byteAt pd (13 + i + 1) = (pd.drop 13).getD (i + 1) 0 := by
      unfold byteAt
      rw [show 13 + i + 1 = 13 + (i + 1) from rfl, getD_drop pd 13 (i + 1), Nat.mod_eq_of_lt]
      rw [List.getD_eq_getElem _ _ (by omega)]
      exact hbytes _ (List.getElem_mem _)
    rw [← e1, ← e2]
    exact hby
  · show pd = headerBytesList (encodeHeader sizes) ++ pd.drop 13
    rw [hdec, hH, ← take13_headerBytes hlen hbytes]
    exact (List.take_append_drop 13 pd).symm

/-! ### Plumbing for the filter level -/

theorem getD_set_self {l : List (List Nat)} {i : Nat} (h : i < l.length) (x d : List Nat) :
    (l.set i x).getD i d = x := by
  rw [List.getD_eq_getElem?_getD, List.getElem?_set_self h]
  rfl

theorem getD_set_ne {l : List (List Nat)} {i j : Nat} (h : i ≠ j) (x d : List Nat) :
    (l.set i x).getD j d = l.getD j d := by
  rw [List.getD_eq_getElem?_getD, List.getElem?_set_ne h, ← List.getD_eq_getElem?_getD]

/-- The failure branch of `pd_add_50` is exactly the fill check, and on
failure the block is untouched. -/
theorem pd_add_50_full_iff (q r : Nat) (pd : List Nat) :
    ((pd_add_50 q r pd).1 = false ↔ pdFillRaw pd = 51) ∧
      (pdFillRaw pd = 51 → pd_add_50 q r pd = (false, pd)) := by
  unfold pd_add_50
  by_cases hfull : pdFillRaw pd = 51
  · rw [if_pos hfull]
    exact ⟨by simp [hfull], fun _ => rfl⟩
  · rw [if_neg hfull]
    exact ⟨by simp [hfull], fun h => absurd h hfull⟩

theorem pdFillRaw_eq_pdFill {pd : List Nat} (hinv : PDInv pd) :
    pdFillRaw pd = pdFill pd := by
  obtain ⟨a, hWF, rfl⟩ := PDInv_encode hinv
  rw [pdFillRaw_encodePD hWF.1 hWF.2.1, pdFill_encodePD hWF.1 hWF.2.1]

/-- Adding into a non-full invariant PD succeeds and yields the encoded
abstract insertion. -/
theorem pd_add_50_success {a : Abs} (hWF : absWF a) {q r : Nat} (hq : q < 50) (hr : r < 256)
    (hnf : a.sizes.sum ≠ 51) :
    pd_add_50 q r (encodePD a) = (true, encodePD (absAdd q r a)) := by
  rw [pd_add_50_encode hWF hq hr, if_neg hnf]

/-- `pd_find_50` finds the remainder just inserted by a successful add. -/
theorem find_after_add {a : Abs} (hWF : absWF a) {q r : Nat} (hq : q < 50) (hr : r < 256)
    (hnf : a.sizes.sum ≠ 51) :
    pd_find_50 q r (pd_add_50 q r (encodePD a)).2 = true := by
  rw [pd_add_50_success hWF hq hr hnf]
  have hs50 : a.sizes.sum ≤ 50 := by
    have := hWF.2.1
    omega
  have hWF' : absWF (absAdd q r a) := absAdd_WF hWF hq hr hs50
  exact (pd_find_50_encode hWF' hq hr).mpr (absAdd_mem_new hWF hq hs50)

/-- `pd_find_50` results survive any later `pd_add_50`. -/
theorem find_preserved {a : Abs} (hWF : absWF a) {q r q' r' : Nat} (hq : q < 50)
    (hr : r < 256) (hq' : q' < 50) (hr' : r' < 256)
    (hfind : pd_find_50 q r (encodePD a) = true) :
    pd_find_50 q r (pd_add_50 q' r' (encodePD a)).2 = true := by
  rw [pd_add_50_encode hWF hq' hr']
  by_cases hfull : a.sizes.sum = 51
  · rw [if_pos hfull]
    exact hfind
  · rw [if_neg hfull]
    have hs50 : a.sizes.sum ≤ 50 := by
      have := hWF.2.1
      omega
    have hWF' : absWF (absAdd q' r' a) := absAdd_WF hWF hq' hr' hs50
    obtain ⟨i, h1, h2, h3⟩ := (pd_find_50_encode hWF hq hr).mp hfind
    exact (pd_find_50_encode hWF' hq hr).mpr
      (absAdd_mem_preserved hWF hq' hs50 h1 h2 h3)

theorem keyQuot_lt (key : Nat) : keyQuot key < 50 := by
  unfold keyQuot
  rw [Nat.shiftRight_eq_div_pow]
  apply Nat.div_lt_of_lt_mul
  have h1 : (key % 2 ^ 64) >>> 40 < 2 ^ 24 := by
    rw [Nat.shiftRight_eq_div_pow]
    apply Nat.div_lt_of_lt_mul
    calc key % 2 ^ 64 < 2 ^ 64 := Nat.mod_lt _ (by norm_num)
    _ = 2 ^ 40 * 2 ^ 24 := by norm_num
  calc (key % 2 ^ 64) >>> 40 * 50 ≤ (2 ^ 24 - 1) * 50 := by
        exact Nat.mul_le_mul_right 50 (by omega)
  _ < 50 * 2 ^ 24 := by norm_num

theorem keyRem_lt (key : Nat) : keyRem key < 256 := Nat.mod_lt _ (by norm_num)

theorem keyBucket_lt {bc : Nat} (hbc : 1 ≤ bc) (key : Nat) : keyBucket bc key < bc := by
  unfold keyBucket
  by_cases hbig : bc < 2 ^ 32
  · have hx : key % 2 ^ 64 % 2 ^ 32 < 2 ^ 32 := Nat.mod_lt _ (by norm_num)
    have hprod : key % 2 ^ 64 % 2 ^ 32 * bc < 2 ^ 64 := by
      calc key % 2 ^ 64 % 2 ^ 32 * bc ≤ (2 ^ 32 - 1) * bc :=
            Nat.mul_le_mul_right bc (by omega)
      _ ≤ (2 ^ 32 - 1) * (2 ^ 32 - 1) := Nat.mul_le_mul_left _ (by omega)
      _ < 2 ^ 64 := by norm_num
    rw [Nat.mod_eq_of_lt hprod, Nat.shiftRight_eq_div_pow]
    apply Nat.div_lt_of_lt_mul
    calc key % 2 ^ 64 % 2 ^ 32 * bc ≤ (2 ^ 32 - 1) * bc :=
          Nat.mul_le_mul_right bc (by omega)
    _ < 2 ^ 32 * bc := (Nat.mul_lt_mul_right (show 0 < bc from by omega)).mpr (by norm_num)
  · have hlt : (key % 2 ^ 64 % 2 ^ 32 * bc % 2 ^ 64) >>> 32 < 2 ^ 32 := by
      rw [Nat.shiftRight_eq_div_pow]
      apply Nat.div_lt_of_lt_mul
      calc key % 2 ^ 64 % 2 ^ 32 * bc % 2 ^ 64 < 2 ^ 64 := Nat.mod_lt _ (by norm_num)
      _ = 2 ^ 32 * 2 ^ 32 := by norm_num
    omega

/-- `Add` decomposes the key into bucket, quotient, and remainder. -/
theorem Add_decomp (c : GenericCrate) (k : Nat) :
    GenericCrate.Add c k =
      ((pd_add_50 (keyQuot k) (keyRem k)
          (c.buckets.getD (keyBucket c.bucket_count k) emptyPD)).1,
        { bucket_count := c.bucket_count,
          buckets := c.buckets.set (keyBucket c.bucket_count k)
            (pd_add_50 (keyQuot k) (keyRem k)
              (c.buckets.getD (keyBucket c.bucket_count k) emptyPD)).2 }) := rfl

/-- `Contain` decomposes the key into bucket, quotient, and remainder. -/
theorem Contain_decomp (finder : Nat → Nat → List Nat → Bool) (c : GenericCrate) (k : Nat) :
    GenericCrate.Contain finder c k =
      finder (keyQuot k) (keyRem k)
        (c.buckets.getD (keyBucket c.bucket_count k) emptyPD) := rfl

/-- Filter invariant: the bucket array has the declared length and every
bucket is the encoding of a well-formed abstract PD. -/
def CrateWF (c : GenericCrate) : Prop :=
  c.buckets.length = c.bucket_count ∧
    ∀ pd ∈ c.buckets, ∃ a : Abs, absWF a ∧ pd = encodePD a

theorem CrateWF_init (n : Nat) : CrateWF (crateInit n) := by
  constructor
  · exact List.length_replicate _ _
  · intro pd hpd
    rw [List.eq_of_mem_replicate hpd]
    exact ⟨absEmpty, absWF_empty, emptyPD_encode⟩

theorem bucket_encode {c : GenericCrate} (hWF : CrateWF c) (idx : Nat) :
    ∃ a : Abs, absWF a ∧ c.buckets.getD idx emptyPD = encodePD a := by
  by_cases hidx : idx < c.buckets.length
  · apply hWF.2
    rw [List.getD_eq_getElem _ _ hidx]
    exact List.getElem_mem _
  · rw [List.getD_eq_default _ _ (by omega)]
    exact ⟨absEmpty, absWF_empty, emptyPD_encode⟩

theorem add_result_encode {pdx : List Nat} (hx : ∃ a : Abs, absWF a ∧ pdx = encodePD a)
    {q r : Nat} (hq : q < 50) (hr : r < 256) :
    ∃ a' : Abs, absWF a' ∧ (pd_add_50 q r pdx).2 = encodePD a' := by
  obtain ⟨a, hWF, rfl⟩ := hx
  rw [pd_add_50_encode hWF hq hr]
  by_cases hfull : a.sizes.sum = 51
  · rw [if_pos hfull]
    exact ⟨a, hWF, rfl⟩
  · rw [if_neg hfull]
    exact ⟨absAdd q r a, absAdd_WF hWF hq hr (by have := hWF.2.1; omega), rfl⟩

theorem CrateWF_add {c : GenericCrate} (hWF : CrateWF c) (k : Nat) :
    CrateWF (GenericCrate.Add c k).2 := by
  rw [Add_decomp]
  constructor
  · show (c.buckets.set _ _).length = c.bucket_count
    rw [List.length_set]
    exact hWF.1
  · intro pd hpd
    rcases List.mem_or_eq_of_mem_set hpd with hold | hnew
    · exact hWF.2 pd hold
    · rw [hnew]
      exact add_result_encode (bucket_encode hWF _) (keyQuot_lt k) (keyRem_lt k)

theorem bucket_count_add (c : GenericCrate) (k : Nat) :
    (GenericCrate.Add c k).2.bucket_count = c.bucket_count := rfl

theorem runAdds_cons (c : GenericCrate) (k : Nat) (ks : List Nat) :
    runAdds c (k :: ks) = runAdds (GenericCrate.Add c k).2 ks := rfl

theorem bucket_count_runAdds (ks : List Nat) : ∀ (c : GenericCrate),
    (runAdds c ks).bucket_count = c.bucket_count := by
  induction ks with
  | nil => intro c; rfl
  | cons k ks ih =>
    intro c
    rw [runAdds_cons, ih]
    rfl

theorem CrateWF_runAdds (ks : List Nat) : ∀ {c : GenericCrate}, CrateWF c →
    CrateWF (runAdds c ks) := by
  induction ks with
  | nil => intro c h; exact h
  | cons k ks ih =>
    intro c h
    rw [runAdds_cons]
    exact ih (CrateWF_add h k)

theorem contain_add_preserved {c : GenericCrate} (hWF : CrateWF c)
    (hbc : 1 ≤ c.bucket_count) {k : Nat} (k' : Nat)
    (hcont : GenericCrate.Contain pd_find_50 c k = true) :
    GenericCrate.Contain pd_find_50 (GenericCrate.Add c k').2 k = true := by
  rw [Contain_decomp] at hcont
  rw [Add_decomp, Contain_decomp]
  show pd_find_50 (keyQuot k) (keyRem k)
    ((c.buckets.set (keyBucket c.bucket_count k') _).getD (keyBucket c.bucket_count k)
      emptyPD) = true
  by_cases hidx : keyBucket c.bucket_count k' = keyBucket c.bucket_count k
  · rw [hidx, getD_set_self (by rw [hWF.1]; exact keyBucket_lt hbc k)]
    obtain ⟨a, haWF, henc⟩ := bucket_encode hWF (keyBucket c.bucket_count k)
    rw [henc]
    rw [henc] at hcont
    exact find_preserved haWF (keyQuot_lt k) (keyRem_lt k) (keyQuot_lt k') (keyRem_lt k') hcont
  · rw [getD_set_ne hidx]
    exact hcont

theorem contain_runAdds_preserved (ks : List Nat) : ∀ {c : GenericCrate}, CrateWF c →
    1 ≤ c.bucket_count → ∀ {k : Nat}, GenericCrate.Contain pd_find_50 c k = true →
    GenericCrate.Contain pd_find_50 (runAdds c ks) k = true := by
  induction ks with
  | nil => intro c _ _ k h; exact h
  | cons k2 ks ih =>
    intro c hWF hbc k h
    rw [runAdds_cons]
    exact ih (CrateWF_add hWF k2) (by rw [bucket_count_add]; exact hbc)
      (contain_add_preserved hWF hbc k2 h)

theorem pair_fst {α β : Type} (a : α) (b : β) : (a, b).1 = a := rfl

theorem contain_after_add {c : GenericCrate} (hWF : CrateWF c)
    (hbc : 1 ≤ c.bucket_count) {k : Nat}
    (hok : (GenericCrate.Add c k).1 = true) :
    GenericCrate.Contain pd_find_50 (GenericCrate.Add c k).2 k = true := by
  rw [Add_decomp] at hok ⊢
  rw [Contain_decomp]
  show pd_find_50 (keyQuot k) (keyRem k)
    ((c.buckets.set (keyBucket c.bucket_count k) _).getD (keyBucket c.bucket_count k)
      emptyPD) = true
  rw [getD_set_self (by rw [hWF.1]; exact keyBucket_lt hbc k)]
  obtain ⟨a, haWF, henc⟩ := bucket_encode hWF (keyBucket c.bucket_count k)
  rw [henc] at hok ⊢
  rw [pair_fst] at hok
  have hnf : a.sizes.sum ≠ 51 := by
    intro hfull
    rw [pd_add_50_encode haWF (keyQuot_lt k) (keyRem_lt k), if_pos hfull] at hok
    simp at hok
  exact find_after_add haWF (keyQuot_lt k) (keyRem_lt k) hnf

theorem pair_snd {α β : Type} (a : α) (b : β) : (a, b).2 = b := rfl

/-- An `Add` never changes a bucket that is already full. -/
theorem add_full_bucket_preserved {c : GenericCrate} {b : Nat}
    (hfull : pdFillRaw (c.buckets.getD b emptyPD) = 51) (k : Nat) :
    (GenericCrate.Add c k).2.buckets.getD b emptyPD = c.buckets.getD b emptyPD := by
  rw [Add_decomp]
  show (c.buckets.set (keyBucket c.bucket_count k)
      (pd_add_50 (keyQuot k) (keyRem k)
        (c.buckets.getD (keyBucket c.bucket_count k) emptyPD)).2).getD b emptyPD =
    c.buckets.getD b emptyPD
  by_cases hb : keyBucket c.bucket_count k = b
  · rw [hb, (pd_add_50_full_iff (keyQuot k) (keyRem k) _).2 hfull, pair_snd]
    by_cases hlen : b < c.buckets.length
    · exact getD_set_self hlen _ _
    · rw [List.set_eq_of_length_le (by omega)]
  · rw [getD_set_ne hb]

theorem runAdds_full_bucket (ks : List Nat) : ∀ (c : GenericCrate) (b : Nat),
    pdFillRaw (c.buckets.getD b emptyPD) = 51 →
    (runAdds c ks).buckets.getD b emptyPD = c.buckets.getD b emptyPD := by
  induction ks with
  | nil => intro c b _; rfl
  | cons k ks ih =>
    intro c b hfull
    rw [runAdds_cons, ih _ _ (by rw [add_full_bucket_preserved hfull k]; exact hfull),
      add_full_bucket_preserved hfull k]

/-- Once an `Add` targeting bucket `b` fails, any later `Add` whose key maps
to the same bucket also fails, whatever other adds happen in between. -/
theorem add_false_monotone {c : GenericCrate} {k : Nat}
    (hF : (GenericCrate.Add c k).1 = false) (ks : List Nat) (k' : Nat)
    (hsame : keyBucket c.bucket_count k' = keyBucket c.bucket_count k) :
    (GenericCrate.Add (runAdds (GenericCrate.Add c k).2 ks) k').1 = false := by
  rw [Add_decomp, pair_fst] at hF
  have hfull : pdFillRaw (c.buckets.getD (keyBucket c.bucket_count k) emptyPD) = 51 :=
    (pd_add_50_full_iff _ _ _).1.mp hF
  have h2 : (GenericCrate.Add c k).2.buckets.getD (keyBucket c.bucket_count k) emptyPD
      = c.buckets.getD (keyBucket c.bucket_count k) emptyPD :=
    add_full_bucket_preserved hfull k
  have h3 := runAdds_full_bucket ks (GenericCrate.Add c k).2 (keyBucket c.bucket_count k)
      (by rw [h2]; exact hfull)
  rw [Add_decomp, pair_fst]
  apply (pd_add_50_full_iff _ _ _).1.mpr
  rw [bucket_count_runAdds, bucket_count_add, hsame, h3, h2]
  exact hfull

/-! ### Batch lookups, the empty PD's invariant, and remaining facts -/

theorem PDInv_emptyPD : PDInv emptyPD := by
  rw [emptyPD_encode]
  exact encode_PDInv absWF_empty

set_option maxRecDepth 100000 in
theorem PDInvOrig_emptyPD : PDInvOrig emptyPD := by
  obtain ⟨h1, h2, h3, _, h5, h6⟩ := PDInv_emptyPD
  exact ⟨h1, h2, h3, by decide, h5, h6⟩

theorem absAdd_sizes_sum {a : Abs} (h50 : a.sizes.length = 50) {q : Nat} (hq : q < 50)
    (r : Nat) : (absAdd q r a).sizes.sum = a.sizes.sum + 1 := by
  show (a.sizes.set q (a.sizes.getD q 0 + 1)).sum = a.sizes.sum + 1
  exact sum_set_succ a.sizes q (by omega)

theorem foldl_or_testBit (g : Nat → Bool) :
    ∀ (n acc i : Nat),
      ((List.range n).foldl (fun result j => result ||| ((if g j then 1 else 0) <<< j))
          acc).testBit i =
        (acc.testBit i || (decide (i < n) && g i)) := by
  intro n
  induction n with
  | zero => intro acc i; simp
  | succ n ih =>
    intro acc i
    rw [List.range_succ, List.foldl_append, List.foldl_cons, List.foldl_nil,
      Nat.testBit_or, ih acc i, Nat.testBit_shiftLeft]
    rcases Nat.lt_trichotomy i n with hlt | heq | hgt
    · have h1 : decide (i < n) = true := decide_eq_true hlt
      have h2 : decide (i < n + 1) = true := decide_eq_true (by omega)
      have h3 : decide (n ≤ i) = false := decide_eq_false (by omega)
      rw [h1, h2, h3, Bool.false_and, Bool.or_false]
    · subst heq
      have h1 : decide (i < i) = false := decide_eq_false (by omega)
      have h2 : decide (i < i + 1) = true := decide_eq_true (by omega)
      have h3 : decide (i ≤ i) = true := decide_eq_true (by omega)
      rw [h1, h2, h3, Bool.false_and, Bool.or_false, Bool.true_and, Bool.true_and,
        Nat.sub_self]
      cases hg : g i
      · rw [Bool.or_false]
        simp
      · simp
    · have h1 : decide (i < n) = false := decide_eq_false (by omega)
      have h2 : decide (i < n + 1) = false := decide_eq_false (by omega)
      have h3 : (if g n then 1 else 0 : Nat).testBit (i - n) = false := by
        cases g n
        · simp
        · simp only [if_pos]
          have : (1 : Nat) < 2 ^ (i - n) :=
            Nat.one_lt_two_pow_iff.mpr (by omega)
          exact Nat.testBit_lt_two_pow this
      rw [h1, h2, h3, Bool.false_and, Bool.or_false, Bool.and_false, Bool.or_false]

theorem shr32_mod32 (x : Nat) : ((x % 2 ^ 64) >>> 32) % 2 ^ 32 = (x % 2 ^ 64) >>> 32 := by
  apply Nat.mod_eq_of_lt
  rw [Nat.shiftRight_eq_div_pow]
  apply Nat.div_lt_of_lt_mul
  calc x % 2 ^ 64 < 2 ^ 64 := Nat.mod_lt _ (by norm_num)
  _ = 2 ^ 32 * 2 ^ 32 := by norm_num

theorem getD_map_range (f : Nat → Nat) {n i : Nat} (hi : i < n) :
    ((List.range n).map f).getD i 0 = f i := by
  rw [List.getD_eq_getElem _ _ (by simpa using hi)]
  simp

/-- Bit `i` of the common or-fold of the batch `Contain` routines is the
per-key `Contain` answer. -/
theorem batch_testBit (finder : Nat → Nat → List Nat → Bool) (c : GenericCrate)
    (keys : List Nat) (n : Nat) {i : Nat} (hi : i < n) :
    ((List.range n).foldl
      (fun result j =>
        result |||
          ((if finder ((((keys.getD j 0 % 2 ^ 64) >>> 40) * 50) >>> 24)
                (((keys.getD j 0 % 2 ^ 64) >>> 32) % 256)
                (c.buckets.getD
                  (((List.range n).map
                    (fun j2 =>
                      ((((keys.getD j2 0 % 2 ^ 64 % 2 ^ 32) * c.bucket_count) % 2 ^ 64) >>>
                          32) % 2 ^ 32)).getD j 0)
                  emptyPD)
            then 1 else 0) <<< j))
      0).testBit i =
    GenericCrate.Contain finder c (keys.getD i 0) := by
  rw [foldl_or_testBit
    (fun j => finder ((((keys.getD j 0 % 2 ^ 64) >>> 40) * 50) >>> 24)
      (((keys.getD j 0 % 2 ^ 64) >>> 32) % 256)
      (c.buckets.getD
        (((List.range n).map
          (fun j2 =>
            ((((keys.getD j2 0 % 2 ^ 64 % 2 ^ 32) * c.bucket_count) % 2 ^ 64) >>> 32) %
              2 ^ 32)).getD j 0)
        emptyPD)) n 0 i]
  rw [Nat.zero_testBit, Bool.false_or, decide_eq_true hi, Bool.true_and]
  rw [getD_map_range
    (fun j2 =>
      ((((keys.getD j2 0 % 2 ^ 64 % 2 ^ 32) * c.bucket_count) % 2 ^ 64) >>> 32) % 2 ^ 32)
    hi]
  rw [shr32_mod32 ((keys.getD i 0 % 2 ^ 64 % 2 ^ 32) * c.bucket_count)]
  rfl

theorem Contain64_testBit (finder : Nat → Nat → List Nat → Bool) (c : GenericCrate)
    (keys : List Nat) {i : Nat} (hi : i < 64) :
    (GenericCrate.Contain64 finder c keys).testBit i =
      GenericCrate.Contain finder c (keys.getD i 0) :=
  batch_testBit finder c keys 64 hi

theorem Contain64_alt_testBit (finder : Nat → Nat → List Nat → Bool) (c : GenericCrate)
    (keys : List Nat) {i : Nat} (hi : i < 64) :
    (GenericCrate.Contain64_alt finder c keys).testBit i =
      GenericCrate.Contain finder c (keys.getD i 0) :=
  batch_testBit finder c keys 64 hi

theorem Contain128_testBit (finder : Nat → Nat → List Nat → Bool) (c : GenericCrate)
    (keys : List Nat) {i : Nat} (hi : i < 128) :
    (GenericCrate.Contain128 finder c keys).testBit i =
      GenericCrate.Contain finder c (keys.getD i 0) :=
  batch_testBit finder c keys 128 hi

/-- A mod-`2^64` reduced argument does not change `select64` (the deposit
already masks its operands). -/
theorem select64_mod (x j : Nat) : select64 (x % 2 ^ 64) j = select64 x j := by
  unfold select64 pdep64
  rw [Nat.mod_mod_of_dvd x (dvd_refl (2 ^ 64))]

/-! ### The ten claims -/

/-- Claim C1: completeness / no false negatives.  PD level: on any PD
reachable by successful adds, after `pd_add_50 q r` returns `true`, every
lookup variant finds `(q, r)` in the result.  Filter level: a key whose
`Add` returned `true` satisfies `Contain` after any further sequence of
`Add`s (bucket count at least one, i.e. `45 ≤ n`). -/
theorem claim_C1_completeness :
    (∀ pd q r, Reachable pd → q < 50 → r < 256 → (pd_add_50 q r pd).1 = true →
      pd_find_50 q r (pd_add_50 q r pd).2 = true ∧
      pd_find_50_alt q r (pd_add_50 q r pd).2 = true ∧
      pd_find_50_alt2 q r (pd_add_50 q r pd).2 = true ∧
      pd_find_50_alt3 q r (pd_add_50 q r pd).2 = true ∧
      pd_find_50_alt4 q r (pd_add_50 q r pd).2 = true ∧
      pd_find_50_alt5 q r (pd_add_50 q r pd).2 = true) ∧
    (∀ n ks1 k ks2, 45 ≤ n →
      (GenericCrate.Add (runAdds (crateInit n) ks1) k).1 = true →
      GenericCrate.Contain pd_find_50
        (runAdds (GenericCrate.Add (runAdds (crateInit n) ks1) k).2 ks2) k = true) := by
  constructor
  · intro pd q r hre hq hr hok
    have hre2 : Reachable (pd_add_50 q r pd).2 := Reachable.step hre hq hr hok
    obtain ⟨a2, hWF2, heq2⟩ := reachable_encode hre2
    have hpop2 : popAux 128 (headerOf (pd_add_50 q r pd).2) = 50 := by
      rw [heq2]
      exact popAux_headerOf_encodePD hWF2.1 hWF2.2.1
    have hfind : pd_find_50 q r (pd_add_50 q r pd).2 = true := by
      obtain ⟨a, hWF, rfl⟩ := reachable_encode hre
      rw [pd_add_50_encode hWF hq hr] at hok
      by_cases hfull : a.sizes.sum = 51
      · rw [if_pos hfull, pair_fst] at hok
        exact absurd hok (by simp)
      · exact find_after_add hWF hq hr hfull
    exact ⟨hfind,
      (pd_find_50_alt_eq r hpop2 hq).trans hfind,
      (pd_find_50_alt2_eq r hpop2 hq).trans hfind,
      (pd_find_50_alt3_eq r hpop2 hq).trans hfind,
      (pd_find_50_alt4_eq r hpop2 hq).trans hfind,
      (pd_find_50_alt5_eq r hpop2 hq).trans hfind⟩
  · intro n ks1 k ks2 hn hok
    have hWF1 : CrateWF (runAdds (crateInit n) ks1) := CrateWF_runAdds ks1 (CrateWF_init n)
    have hbc1 : 1 ≤ (runAdds (crateInit n) ks1).bucket_count := by
      rw [bucket_count_runAdds]
      show 1 ≤ n / 45
      exact (Nat.one_le_div_iff (by norm_num)).mpr hn
    exact contain_runAdds_preserved ks2 (CrateWF_add hWF1 k)
      (by rw [bucket_count_add]; exact hbc1)
      (contain_after_add hWF1 hbc1 hok)

/-- Claim C2: on every PD reachable from the empty PD by successful adds,
all five alternative lookup variants agree with `pd_find_50` for every
in-range quotient and remainder. -/
theorem claim_C2_variant_equivalence {pd : List Nat} (hre : Reachable pd) {q : Nat}
    (r : Nat) (hq : q < 50) (hr : r < 256) :
    pd_find_50_alt q r pd = pd_find_50 q r pd ∧
    pd_find_50_alt2 q r pd = pd_find_50 q r pd ∧
    pd_find_50_alt3 q r pd = pd_find_50 q r pd ∧
    pd_find_50_alt4 q r pd = pd_find_50 q r pd ∧
    pd_find_50_alt5 q r pd = pd_find_50 q r pd := by
  have hpop : popAux 128 (headerOf pd) = 50 := by
    obtain ⟨a, hWF, rfl⟩ := reachable_encode hre
    exact popAux_headerOf_encodePD hWF.1 hWF.2.1
  exact ⟨pd_find_50_alt_eq r hpop hq, pd_find_50_alt2_eq r hpop hq,
    pd_find_50_alt3_eq r hpop hq, pd_find_50_alt4_eq r hpop hq,
    pd_find_50_alt5_eq r hpop hq⟩

/-- Claim C3 (amended): on a PD satisfying the invariant — 50 set bits in
the masked header, the 13 header bytes below `2^101` (in place of the
spec's raw `H >> 101 = 0`, which the tape bytes at offsets 13..15 break),
sorted classes, fill at most 51 — a successful `pd_add_50` preserves the
invariant and increases the fill by exactly one. -/
theorem claim_C3_invariant_preservation {pd : List Nat} (hinv : PDInv pd) {q r : Nat}
    (hq : q < 50) (hr : r < 256) (hok : (pd_add_50 q r pd).1 = true) :
    PDInv (pd_add_50 q r pd).2 ∧ pdFill (pd_add_50 q r pd).2 = pdFill pd + 1 := by
  obtain ⟨a, hWF, rfl⟩ := PDInv_encode hinv
  rw [pd_add_50_encode hWF hq hr] at hok
  by_cases hfull : a.sizes.sum = 51
  · rw [if_pos hfull, pair_fst] at hok
    exact absurd hok (by simp)
  · rw [pd_add_50_encode hWF hq hr, if_neg hfull, pair_snd]
    have hWF2 : absWF (absAdd q r a) := absAdd_WF hWF hq hr (by have := hWF.2.1; omega)
    refine ⟨encode_PDInv hWF2, ?_⟩
    rw [pdFill_encodePD hWF2.1 hWF2.2.1, pdFill_encodePD hWF.1 hWF.2.1,
      absAdd_sizes_sum hWF.1 hq r]

/-- Claim C4: `pd_add_50` on an invariant PD returns `false` exactly when
the fill `s_49 - 49` is 51, and on failure the block is returned
unchanged. -/
theorem claim_C4_saturation_error_handling {pd : List Nat} (hinv : PDInv pd)
    (q r : Nat) :
    ((pd_add_50 q r pd).1 = false ↔ pdFill pd = 51) ∧
    ((pd_add_50 q r pd).1 = false → pd_add_50 q r pd = (false, pd)) := by
  have hiff := pd_add_50_full_iff q r pd
  rw [pdFillRaw_eq_pdFill hinv] at hiff
  exact ⟨hiff.1, fun hf => hiff.2 (hiff.1.mp hf)⟩

/-- Claim C5: bit `i` of `Contain64`, `Contain64_alt` (for `i < 64`) and
`Contain128` (for `i < 128`) equals the plain `Contain` answer for
`keys[i]`, for any filter state and lookup routine. -/
theorem claim_C5_batch_equivalence (finder : Nat → Nat → List Nat → Bool)
    (c : GenericCrate) (keys : List Nat) (i : Nat) :
    (i < 64 →
      (GenericCrate.Contain64 finder c keys).testBit i =
          GenericCrate.Contain finder c (keys.getD i 0) ∧
        (GenericCrate.Contain64_alt finder c keys).testBit i =
          GenericCrate.Contain finder c (keys.getD i 0)) ∧
    (i < 128 →
      (GenericCrate.Contain128 finder c keys).testBit i =
        GenericCrate.Contain finder c (keys.getD i 0)) :=
  ⟨fun hi => ⟨Contain64_testBit finder c keys hi, Contain64_alt_testBit finder c keys hi⟩,
    fun hi => Contain128_testBit finder c keys hi⟩

/-- Claim C6: `Add` and `Contain` decompose the key into the Lemire bucket
index, the multiplicative quotient, and the byte remainder; the quotient
is below 50, the remainder below 256, and the bucket index below
`bucket_count` whenever `bucket_count ≥ 1`. -/
theorem claim_C6_key_decomposition (finder : Nat → Nat → List Nat → Bool)
    (c : GenericCrate) (k : Nat) :
    GenericCrate.Add c k =
      ((pd_add_50 (keyQuot k) (keyRem k)
          (c.buckets.getD (keyBucket c.bucket_count k) emptyPD)).1,
        { bucket_count := c.bucket_count,
          buckets := c.buckets.set (keyBucket c.bucket_count k)
            (pd_add_50 (keyQuot k) (keyRem k)
              (c.buckets.getD (keyBucket c.bucket_count k) emptyPD)).2 }) ∧
    GenericCrate.Contain finder c k =
      finder (keyQuot k) (keyRem k)
        (c.buckets.getD (keyBucket c.bucket_count k) emptyPD) ∧
    keyBucket c.bucket_count k = ((k % 2 ^ 64 % 2 ^ 32) * c.bucket_count % 2 ^ 64) >>> 32 ∧
    keyQuot k = (((k % 2 ^ 64) >>> 40) * 50) >>> 24 ∧
    keyRem k = ((k % 2 ^ 64) >>> 32) % 256 ∧
    keyQuot k < 50 ∧ keyRem k < 256 ∧
    (1 ≤ c.bucket_count → keyBucket c.bucket_count k < c.bucket_count) :=
  ⟨Add_decomp c k, Contain_decomp finder c k, rfl, rfl, rfl,
    keyQuot_lt k, keyRem_lt k, fun h => keyBucket_lt h k⟩

/-- Claim C7 (amended): the constructor allocates `n / 45` buckets rounded
DOWN (the spec says `⌈n / 45⌉`; integer division in the source floors), and
`SizeInBytes()` is `64 * bucket_count` (no overflow for `n ≤ 2^62`). -/
theorem claim_C7_bucket_sizing {n : Nat} (hn : n ≤ 2 ^ 62) :
    (crateInit n).bucket_count = n / 45 ∧
    (crateInit n).buckets.length = n / 45 ∧
    (crateInit n).SizeInBytes = 64 * (n / 45) := by
  refine ⟨rfl, List.length_replicate _ _, ?_⟩
  show 64 * (n / 45) % 2 ^ 64 = 64 * (n / 45)
  apply Nat.mod_eq_of_lt
  have h1 : n / 45 ≤ 2 ^ 62 / 45 := Nat.div_le_div_right hn
  calc 64 * (n / 45) ≤ 64 * (2 ^ 62 / 45) := Nat.mul_le_mul_left 64 h1
  _ < 2 ^ 64 := by norm_num

/-- Claim C8 (amended): `select64_alt(x, -1)` returns 0, not 63 as the
spec says (the final `63 &&&` of a trailing-zero count of 64 gives 0);
for natural `j ≤ 62` with `j < popcount(x)` it agrees with `select64` and
returns the position of the `j`th set bit. -/
theorem claim_C8_select64_alt_boundary (x : Nat) :
    select64_alt x (-1) = 0 ∧
    (∀ j : Nat, j ≤ 62 → j < popcount64 x →
      select64_alt x (j : Int) = select64 x j ∧
        IsNth (x % 2 ^ 64) j (select64 x j)) := by
  refine ⟨select64_alt_neg_one x, ?_⟩
  intro j hj hpc
  obtain ⟨hn, hs⟩ := nthAux_spec 64 (x % 2 ^ 64) j hpc
  have hsel : select64 x j = nthAux 64 (x % 2 ^ 64) j := by
    rw [← select64_mod x j]
    exact select64_eq hn hs
  constructor
  · rw [select64_alt_of_nat x hj, hsel, and63_eq hs]
  · rw [hsel]
    exact hn

/-- Claim C9: saturation is monotone.  PD level: once `pd_add_50` returns
`false` on a block, every `pd_add_50` on that block fails and leaves it
unchanged.  Filter level: once an `Add` targeting bucket `b` fails, every
later `Add` whose key maps to `b` fails, whatever other adds intervene. -/
theorem claim_C9_saturation_monotonicity :
    (∀ (pd : List Nat) (q r q2 r2 : Nat), (pd_add_50 q r pd).1 = false →
      pd_add_50 q2 r2 pd = (false, pd)) ∧
    (∀ (c : GenericCrate) (k : Nat), (GenericCrate.Add c k).1 = false →
      ∀ (ks : List Nat) (k2 : Nat),
        keyBucket c.bucket_count k2 = keyBucket c.bucket_count k →
        (GenericCrate.Add (runAdds (GenericCrate.Add c k).2 ks) k2).1 = false) := by
  constructor
  · intro pd q r q2 r2 hF
    exact (pd_add_50_full_iff q2 r2 pd).2 ((pd_add_50_full_iff q r pd).1.mp hF)
  · intro c k hF ks k2 hsame
    exact add_false_monotone hF ks k2 hsame

/-- Claim C10: on an invariant PD with fill below 51 and quotient below
50, the insertion index lies between the class bounds, the class end is
at most the fill (at most 50), and the byte store at offset `13 + i`
stays inside the 64-byte block. -/
theorem claim_C10_tape_shift_bounds {pd : List Nat} (hinv : PDInv pd)
    (hfill : pdFill pd < 51) {q : Nat} (hq : q < 50) (r : Nat) :
    sub64 (addBeginH (pdHeader13 pd) q) q ≤ addIndex q r pd ∧
    addIndex q r pd ≤ sub64 (addEndH (pdHeader13 pd) q) q ∧
    sub64 (addEndH (pdHeader13 pd) q) q ≤ pdFill pd ∧
    pdFill pd ≤ 50 ∧
    13 + addIndex q r pd + 1 ≤ 64 := by
  obtain ⟨a, hWF, rfl⟩ := PDInv_encode hinv
  obtain ⟨h50, hsum, hlen, hbytes, hsort⟩ := hWF
  rw [pdFill_encodePD h50 hsum] at hfill ⊢
  have hlt : encodeHeader a.sizes < 2 ^ 101 := encodeHeader_lt_101 h50 hsum
  have hpop : popAux 128 (encodeHeader a.sizes) = 50 := by
    rw [popAux_encodeHeader a.sizes (by omega)]
    exact h50
  have hH13 : pdHeader13 (encodePD a) = encodeHeader a.sizes := pdHeader13_encodePD h50 hsum
  have hpsle : psum a.sizes q ≤ psum a.sizes (q + 1) := psum_mono a.sizes (by omega)
  have hps1 : psum a.sizes (q + 1) ≤ a.sizes.sum := psum_le_sum a.sizes (q + 1)
  have hps0 : psum a.sizes q ≤ a.sizes.sum := psum_le_sum a.sizes q
  have hb64 : sub64 (addBeginH (pdHeader13 (encodePD a)) q) q = psum a.sizes q := by
    rw [hH13, addBeginH_eq hlt hpop hq, beginH_encodeHeader h50 hsum hq,
      sub64_eq (by omega) (by omega)]
    omega
  have he64 : sub64 (addEndH (pdHeader13 (encodePD a)) q) q = psum a.sizes (q + 1) := by
    rw [hH13, addEndH_eq hlt hpop hq, endH_encodeHeader h50 hsum hq,
      sub64_eq (by omega) (by omega)]
    omega
  have hwH : writeHeader (encodePD a) (newHeaderOf (pdHeader13 (encodePD a)) q) =
      encodePD ⟨a.sizes.set q (a.sizes.getD q 0 + 1), a.tape⟩ := by
    rw [hH13, newHeader_encode h50 hsum hq, writeHeader_encodePD]
    rfl
  have hscan : addIndex q r (encodePD a) =
      tapeScan (r % 256) a.tape (psum a.sizes q) (psum a.sizes (q + 1) - psum a.sizes q) := by
    show scanIdx (r % 256)
        (writeHeader (encodePD a) (newHeaderOf (pdHeader13 (encodePD a)) q))
        (sub64 (addBeginH (pdHeader13 (encodePD a)) q) q)
        (sub64 (addEndH (pdHeader13 (encodePD a)) q) q -
          sub64 (addBeginH (pdHeader13 (encodePD a)) q) q) = _
    rw [hwH, hb64, he64]
    exact scanIdx_eq_tapeScan (a := ⟨a.sizes.set q (a.sizes.getD q 0 + 1), a.tape⟩)
      hlen hbytes (r % 256) _ _ (by omega)
  have hge := tapeScan_ge (r % 256) a.tape (psum a.sizes (q + 1) - psum a.sizes q)
    (psum a.sizes q)
  have hle := tapeScan_le (r % 256) a.tape (psum a.sizes (q + 1) - psum a.sizes q)
    (psum a.sizes q)
  rw [hscan, hb64, he64]
  exact ⟨hge, by omega, by omega, by omega, by omega⟩

/-! ### Witnesses and counterexamples -/

set_option maxRecDepth 1000000 in
/-- Concrete instance of C1 at the empty PD and a one-bucket filter. -/
theorem claim_C1_completeness_witness :
    Reachable emptyPD ∧ (0 : Nat) < 50 ∧ (5 : Nat) < 256 ∧
    (pd_add_50 0 5 emptyPD).1 = true ∧
    pd_find_50 0 5 (pd_add_50 0 5 emptyPD).2 = true ∧
    45 ≤ 45 ∧
    (GenericCrate.Add (runAdds (crateInit 45) []) 7).1 = true ∧
    GenericCrate.Contain pd_find_50
      (runAdds (GenericCrate.Add (runAdds (crateInit 45) []) 7).2 []) 7 = true :=
  ⟨Reachable.base, by norm_num, by norm_num, by decide,
    (claim_C1_completeness.1 emptyPD 0 5 Reachable.base (by norm_num) (by norm_num)
      (by decide)).1,
    by norm_num, by decide,
    claim_C1_completeness.2 45 [] 7 [] (by norm_num) (by decide)⟩

set_option maxRecDepth 1000000 in
/-- Concrete instance of C2 at the empty PD. -/
theorem claim_C2_variant_equivalence_witness :
    Reachable emptyPD ∧ (3 : Nat) < 50 ∧ (7 : Nat) < 256 ∧
    (pd_find_50_alt 3 7 emptyPD = pd_find_50 3 7 emptyPD ∧
      pd_find_50_alt2 3 7 emptyPD = pd_find_50 3 7 emptyPD ∧
      pd_find_50_alt3 3 7 emptyPD = pd_find_50 3 7 emptyPD ∧
      pd_find_50_alt4 3 7 emptyPD = pd_find_50 3 7 emptyPD ∧
      pd_find_50_alt5 3 7 emptyPD = pd_find_50 3 7 emptyPD) :=
  ⟨Reachable.base, by norm_num, by norm_num,
    claim_C2_variant_equivalence Reachable.base 7 (by norm_num) (by norm_num)⟩

set_option maxRecDepth 1000000 in
/-- The spec's raw-header invariant `H >> 101 = 0` is NOT preserved by a
successful add: inserting into class 49 of the empty PD shifts header
bits into byte 13 (bits 104..), so the raw 128-bit load no longer clears
above bit 101. -/
theorem claim_C3_counterexample :
    ¬ ∀ (pd : List Nat) (q r : Nat), PDInvOrig pd → q < 50 → r < 256 →
        (pd_add_50 q r pd).1 = true → PDInvOrig (pd_add_50 q r pd).2 := by
  intro h
  have h49 := h emptyPD 49 1 PDInvOrig_emptyPD (by norm_num) (by norm_num) (by decide)
  have hraw := h49.2.2.2.1
  revert hraw
  decide

set_option maxRecDepth 1000000 in
/-- Concrete instance of C3 (amended) at the empty PD. -/
theorem claim_C3_invariant_preservation_witness :
    PDInv emptyPD ∧ (0 : Nat) < 50 ∧ (5 : Nat) < 256 ∧
    (pd_add_50 0 5 emptyPD).1 = true ∧
    pdFill (pd_add_50 0 5 emptyPD).2 = pdFill emptyPD + 1 :=
  ⟨PDInv_emptyPD, by norm_num, by norm_num, by decide,
    (@claim_C3_invariant_preservation emptyPD PDInv_emptyPD 0 5 (by norm_num) (by norm_num)
      (by decide)).2⟩

set_option maxRecDepth 1000000 in
/-- Concrete instance of C4 at the empty PD. -/
theorem claim_C4_saturation_error_handling_witness :
    PDInv emptyPD ∧
    ((pd_add_50 2 8 emptyPD).1 = false ↔ pdFill emptyPD = 51) :=
  ⟨PDInv_emptyPD, (claim_C4_saturation_error_handling PDInv_emptyPD 2 8).1⟩

/-- Concrete instance of C5 on a fresh one-bucket filter. -/
theorem claim_C5_batch_equivalence_witness :
    (0 : Nat) < 64 ∧
    (GenericCrate.Contain64 pd_find_50 (crateInit 45) [6]).testBit 0 =
      GenericCrate.Contain pd_find_50 (crateInit 45) ([6].getD 0 0) :=
  ⟨by norm_num,
    ((claim_C5_batch_equivalence pd_find_50 (crateInit 45) [6] 0).1 (by norm_num)).1⟩

/-- Concrete instance of C6 on a fresh one-bucket filter. -/
theorem claim_C6_key_decomposition_witness :
    1 ≤ (crateInit 45).bucket_count ∧
    keyBucket (crateInit 45).bucket_count 7 < (crateInit 45).bucket_count :=
  ⟨by decide,
    (claim_C6_key_decomposition pd_find_50 (crateInit 45) 7).2.2.2.2.2.2.2 (by decide)⟩

/-- The constructor FLOORS `n / 45`: with a provisioned count of 1 it
allocates zero buckets, not the `⌈1 / 45⌉ = 1` the spec promises. -/
theorem claim_C7_counterexample :
    ¬ ∀ n : Nat, (crateInit n).bucket_count = (n + 44) / 45 := fun h =>
  absurd (h 1) (by decide)

/-- Concrete instance of C7 (amended) at `n = 90`. -/
theorem claim_C7_bucket_sizing_witness :
    (90 : Nat) ≤ 2 ^ 62 ∧ (crateInit 90).SizeInBytes = 64 * (90 / 45) :=
  ⟨by norm_num, (claim_C7_bucket_sizing (by norm_num)).2.2⟩

/-- `select64_alt(x, -1)` is 0, not the 63 the spec promises: for `j = -1`
the deposit source is 0, the trailing-zero count is 64, and `63 &&& 64`
is 0. -/
theorem claim_C8_counterexample : ¬ ∀ x : Nat, select64_alt x (-1) = 63 := by
  intro h
  have h5 := h 5
  rw [select64_alt_neg_one] at h5
  exact absurd h5 (by norm_num)

set_option maxRecDepth 100000 in
/-- Concrete instance of C8 (amended) at `x = 5`, `j = 1`. -/
theorem claim_C8_select64_alt_boundary_witness :
    select64_alt 5 (-1) = 0 ∧ (1 : Nat) ≤ 62 ∧ 1 < popcount64 5 ∧
    select64_alt 5 (1 : Int) = select64 5 1 :=
  ⟨(claim_C8_select64_alt_boundary 5).1, by norm_num, by decide,
    ((claim_C8_select64_alt_boundary 5).2 1 (by norm_num) (by decide)).1⟩

set_option maxRecDepth 1000000 in
/-- Concrete instance of C9 on a saturated PD (class 0 holds all 51
remainders) and a one-bucket filter around it. -/
theorem claim_C9_saturation_monotonicity_witness :
    (pd_add_50 0 3 (encodePD ⟨51 :: List.replicate 49 0, List.replicate 51 7⟩)).1 = false ∧
    pd_add_50 1 9 (encodePD ⟨51 :: List.replicate 49 0, List.replicate 51 7⟩) =
      (false, encodePD ⟨51 :: List.replicate 49 0, List.replicate 51 7⟩) ∧
    (GenericCrate.Add
      { bucket_count := 1,
        buckets := [encodePD ⟨51 :: List.replicate 49 0, List.replicate 51 7⟩] } 2).1 =
      false ∧
    keyBucket (1 : Nat) 4 = keyBucket 1 2 ∧
    (GenericCrate.Add (runAdds (GenericCrate.Add
      { bucket_count := 1,
        buckets := [encodePD ⟨51 :: List.replicate 49 0, List.replicate 51 7⟩] } 2).2 [3])
        4).1 = false :=
  ⟨by decide,
    claim_C9_saturation_monotonicity.1 _ 0 3 1 9 (by decide),
    by decide,
    by decide,
    claim_C9_saturation_monotonicity.2 _ 2 (by decide) [3] 4 (by decide)⟩

set_option maxRecDepth 1000000 in
/-- Concrete instance of C10 at the empty PD. -/
theorem claim_C10_tape_shift_bounds_witness :
    PDInv emptyPD ∧ pdFill emptyPD < 51 ∧ (0 : Nat) < 50 ∧
    13 + addIndex 0 9 emptyPD + 1 ≤ 64 :=
  ⟨PDInv_emptyPD, by decide, by norm_num,
    (@claim_C10_tape_shift_bounds emptyPD PDInv_emptyPD (by decide) 0 (by norm_num)
      9).2.2.2.2⟩

